import Mathlib

/-!
Verification development for the tunnel-manager reconciliation controller.

The Go sources are shallowly embedded as pure Lean functions:

* strings are Lean `String`s, with the handful of `strings.*` stdlib helpers
  (TrimSpace, TrimSuffix, ToLower, Contains, HasSuffix) re-implemented over
  `List Char` so that every definition is kernel-executable;
* Go maps are association lists with overwrite-on-insert semantics, iterated
  in insertion order (Go's map iteration order is unspecified; none of the
  verified properties depend on it);
* the Cloudflare API is represented by the sequence of calls the reconciler
  issues and by an explicit world state mapping zone ids to record lists;
* fallible calls are driven by an explicit failure oracle.
-/

namespace TunnelManager

/-! ## String primitives (models of Go `strings` stdlib helpers) -/

/-- Does the list start with the pattern `p`? (model of a bytewise prefix test) -/
def listStarts : List Char → List Char → Bool
  | _, [] => true
  | [], _ :: _ => false
  | a :: as, b :: bs => a == b && listStarts as bs

/-- Does the list contain `sub` as a contiguous sublist? (model of `strings.Contains`) -/
def listHasSub (sub : List Char) : List Char → Bool
  | [] => listStarts [] sub
  | c :: t => listStarts (c :: t) sub || listHasSub sub t

/-- Model of Go `strings.Contains s sub`. -/
def strContainsSub (s sub : String) : Bool :=
  listHasSub sub.data s.data

/-- Model of Go `strings.HasSuffix s suff`. -/
def strEndsWith (s suff : String) : Bool :=
  listStarts s.data.reverse suff.data.reverse

/-- Model of Go `strings.TrimSpace` (whitespace at both ends removed). -/
def strTrim (s : String) : String :=
  ⟨(((s.data.dropWhile Char.isWhitespace).reverse.dropWhile Char.isWhitespace).reverse)⟩

/-- Model of Go `strings.ToLower` (ASCII case folding). -/
def strToLower (s : String) : String :=
  ⟨s.data.map Char.toLower⟩

/-- Model of Go `strings.TrimSuffix s "."` (one trailing dot removed, if present). -/
def trimDotSuffix (s : String) : String :=
  if strEndsWith s "." then ⟨s.data.dropLast⟩ else s

/-! ## dns.go: hostname normalization and zone matching -/

/-- `normalizeHost` from `internal/sync/dns.go`: trim space, strip one trailing
dot, lowercase. -/
def normalizeHost (s : String) : String :=
  strToLower (trimDotSuffix (strTrim s))

/-- `equalDNSHost` from `internal/sync/dns.go`: hostname equality up to
normalization. -/
def equalDNSHost (a b : String) : Bool :=
  normalizeHost a == normalizeHost b

/-- `zoneSummary` from `internal/sync/dns.go`. -/
structure zoneSummary where
  id : String
  name : String
deriving DecidableEq, Repr

/-- The zone-match test inside `bestMatchingZone`: the (normalized) zone name
equals the hostname or is a dot-separated suffix of it. -/
def zoneNameMatches (hostname n : String) : Bool :=
  normalizeHost hostname == n || strEndsWith (normalizeHost hostname) ("." ++ n)

/-- One iteration of the `bestMatchingZone` loop: keep the candidate zone name
when it matches and is strictly longer than the best so far (Go `len` is byte
length; for names that all match the same hostname, byte-length and
char-length orders coincide, since any two matchers are suffixes of one
another). -/
def bmzStep (hostname best : String) (z : zoneSummary) : String :=
  let name := normalizeHost z.name
  if zoneNameMatches hostname name && name.data.length > best.data.length then name
  else best

/-- `bestMatchingZone` from `internal/sync/dns.go`: the longest matching
normalized zone name, or `""` when no zone matches. -/
def bestMatchingZone (hostname : String) (zones : List zoneSummary) : String :=
  zones.foldl (bmzStep hostname) ""

/-! ## dns.go: records and the per-zone diff (`syncZoneRecords`) -/

/-- `managedCommentMarker` from `internal/sync/dns.go`. -/
def managedCommentMarker : String := "managed by tunnel-manager"

/-- `dnsRecord` from `internal/sync/dns.go`. -/
structure dnsRecord where
  id : String
  type : String
  name : String
  content : String
  comment : String
deriving DecidableEq, Repr

/-- `strings.Contains rec.Comment managedCommentMarker`: the ownership test. -/
def isManagedComment (c : String) : Bool :=
  strContainsSub c managedCommentMarker

/-- Association-list insert with overwrite: the model of a Go map assignment
`m[k] = v` (an existing key keeps its position, a new key is appended). -/
def upsert {α : Type} (m : List (String × α)) (k : String) (v : α) : List (String × α) :=
  match m with
  | [] => [(k, v)]
  | (k0, v0) :: rest => if k0 == k then (k0, v) :: rest else (k0, v0) :: upsert rest k v

/-- Association-list lookup: the model of a Go map read `m[k]` (miss = `none`). -/
def assocLookup {α : Type} : List (String × α) → String → Option α
  | [], _ => none
  | (k0, v0) :: rest, k => if k0 == k then some v0 else assocLookup rest k

/-- One step of the record-indexing loop of `syncZoneRecords`: a CNAME record
is indexed under its normalized name (overwriting), others are left alone. -/
def cnameStep (m : List (String × dnsRecord)) (r : dnsRecord) : List (String × dnsRecord) :=
  if r.type == "CNAME" then upsert m (normalizeHost r.name) r else m

/-- The `cnameByName` index built by `syncZoneRecords`: normalized name of each
CNAME record mapped to the record (later records overwrite earlier ones, as in
the Go map). -/
def cnameByName (records : List dnsRecord) : List (String × dnsRecord) :=
  records.foldl cnameStep []

/-- The `hasAorAAAA` index built by `syncZoneRecords`: does an A or AAAA record
exist for the normalized name? -/
def hasAorAAAA (records : List dnsRecord) (name : String) : Bool :=
  records.any fun r => (r.type == "A" || r.type == "AAAA") && normalizeHost r.name == name

/-- A mutating DNS API call issued by `syncZoneRecords`. -/
inductive dnsAction where
  | deleteRecord (recordID hostname : String)
  | updateRecord (recordID hostname target : String)
  | createRecord (hostname target : String)
deriving DecidableEq, Repr

/-- The action (if any) taken for one `cnameByName` entry in the first loop of
`syncZoneRecords`: delete an orphaned managed CNAME, update a managed CNAME
whose content differs from the target, and leave unmanaged CNAMEs untouched. -/
def existingCnameAction (hosts : List String) (target : String)
    (p : String × dnsRecord) : Option dnsAction :=
  let shouldBeManaged := hosts.contains p.1
  let isManaged := isManagedComment p.2.comment
  if !shouldBeManaged && isManaged then
    some (.deleteRecord p.2.id p.1)
  else if shouldBeManaged && isManaged && !(equalDNSHost p.2.content target) then
    some (.updateRecord p.2.id p.1 target)
  else
    none

/-- The `seen` set after the first loop of `syncZoneRecords`: desired hostnames
that already have a CNAME entry (managed or not). -/
def seenHosts (records : List dnsRecord) (hosts : List String) : List String :=
  (cnameByName records).filterMap fun p => if hosts.contains p.1 then some p.1 else none

/-- The action (if any) taken for one desired hostname in the second loop of
`syncZoneRecords`: create a managed CNAME unless the hostname was already seen
or an A/AAAA record conflicts. -/
def missingHostAction (records : List dnsRecord) (hosts : List String) (target : String)
    (host : String) : Option dnsAction :=
  if (seenHosts records hosts).contains host then none
  else if hasAorAAAA records host then none
  else some (.createRecord host target)

/-- The sequence of mutating DNS calls issued by `syncZoneRecords` (dns.go) for
one zone, given the desired hostnames assigned to the zone, the tunnel target
and the zone's records: the existing-CNAME loop followed by the creation loop. -/
def syncZoneActions (hosts : List String) (target : String)
    (records : List dnsRecord) : List dnsAction :=
  (cnameByName records).filterMap (existingCnameAction hosts target)
    ++ hosts.filterMap (missingHostAction records hosts target)

/-- The record set the provider holds after one mutating call succeeds:
`deleteDNSRecord` removes the record by id, `updateCNAMERecordTarget` PATCHes
content and comment, `createCNAMERecord` POSTs a new managed CNAME (the
provider-assigned id is modelled as `"new-" ++ hostname`; no verified property
depends on it). -/
def applyAction (records : List dnsRecord) : dnsAction → List dnsRecord
  | .deleteRecord rid _ => records.filter fun r => r.id != rid
  | .updateRecord rid _ tgt =>
      records.map fun r =>
        if r.id == rid then { r with content := tgt, comment := managedCommentMarker } else r
  | .createRecord host tgt =>
      records ++ [⟨"new-" ++ host, "CNAME", host, tgt, managedCommentMarker⟩]

/-- The zone's record set after a fully successful `syncZoneRecords` run. -/
def runZoneSync (hosts : List String) (target : String)
    (records : List dnsRecord) : List dnsRecord :=
  (syncZoneActions hosts target records).foldl applyAction records

/-! ## state.go: `SyncState` -/

/-- `SyncState` from `internal/sync/state.go`: the Go map `HostToService` is an
association list with pairwise distinct keys. -/
structure SyncState where
  HostToService : List (String × String)
deriving DecidableEq, Repr

/-- `NewSyncState` from `internal/sync/state.go`. -/
def NewSyncState : SyncState := ⟨[]⟩

/-- `SyncState.Len`. -/
def SyncState.Len (s : SyncState) : Nat := s.HostToService.length

/-- `SyncState.Append` from `internal/sync/state.go`: error if the exact
hostname string is already a key, otherwise insert. -/
def SyncState.Append (s : SyncState) (hostname service : String) : Except String SyncState :=
  match assocLookup s.HostToService hostname with
  | some existing =>
      .error ("hostname " ++ hostname ++ " is already mapped to service " ++ existing)
  | none => .ok ⟨s.HostToService ++ [(hostname, service)]⟩

/-- The Go-map key-uniqueness invariant of `HostToService`. -/
def SyncState.keysNodup (s : SyncState) : Prop :=
  (s.HostToService.map Prod.fst).Nodup

/-! ## tunnel.go: `SyncTunnel` -/

/-- `TunnelIngressRule` from `internal/sync/tunnel.go` (`OriginRequest` is never
populated by the program and is omitted). -/
structure TunnelIngressRule where
  Hostname : String
  Service : String
deriving DecidableEq, Repr

/-- Bytewise lexicographic `≤` on strings, the order Go's `<` on strings
induces (UTF-8 byte order coincides with codepoint order). -/
def listLexLe : List Char → List Char → Bool
  | [], _ => true
  | _ :: _, [] => false
  | a :: as, b :: bs =>
      if a.toNat < b.toNat then true
      else if b.toNat < a.toNat then false
      else listLexLe as bs

/-- Comparator of `sort.Slice` in `SyncTunnel`, as a total order test. -/
def ruleLe (a b : TunnelIngressRule) : Bool :=
  listLexLe a.Hostname.data b.Hostname.data

/-- Insert into a sorted list (model of the sort performed by `sort.Slice`). -/
def insertSorted (a : TunnelIngressRule) : List TunnelIngressRule → List TunnelIngressRule
  | [] => [a]
  | b :: t => if ruleLe a b then a :: b :: t else b :: insertSorted a t

/-- Sort ingress rules by hostname ascending (model of `sort.Slice` in
`SyncTunnel`; the claims depend only on sortedness, not the algorithm). -/
def sortRules (l : List TunnelIngressRule) : List TunnelIngressRule :=
  l.foldr insertSorted []

/-- The catch-all rule appended by `SyncTunnel` (`hostname` empty = omitted). -/
def catchAllRule : TunnelIngressRule := ⟨"", "http_status:404"⟩

/-- The ingress rule list `SyncTunnel` (tunnel.go) publishes for a state: the
host/service pairs sorted by hostname, with the catch-all appended last. -/
def tunnelIngressRules (state : SyncState) : List TunnelIngressRule :=
  sortRules (state.HostToService.map fun p => ⟨p.1, p.2⟩) ++ [catchAllRule]

/-! ## Kube state deriver: `chooseServicePort` -/

/-- Digit-string accumulator for the `strconv.Atoi` model. -/
def digitsAux (acc : Nat) : List Char → Option Nat
  | [] => some acc
  | c :: t =>
      if 48 ≤ c.toNat && c.toNat ≤ 57 then digitsAux (acc * 10 + (c.toNat - 48)) t
      else none

/-- Model of Go `strconv.Atoi`: optional sign, then at least one digit; any
other input is an error (`none`).  Go's 64-bit range clamping is not modelled;
it is immaterial to the verified properties, which use small inputs. -/
def goAtoi (s : String) : Option Int :=
  match s.data with
  | [] => none
  | '+' :: t => if t.isEmpty then none else (digitsAux 0 t).map Int.ofNat
  | '-' :: t => if t.isEmpty then none else (digitsAux 0 t).map fun n => -(n : Int)
  | l => (digitsAux 0 l).map Int.ofNat

/-- Go `int32(v)`: two's-complement wrap-around of an `Int` to 32 bits. -/
def toInt32 (v : Int) : Int :=
  (v + 2 ^ 31) % 2 ^ 32 - 2 ^ 31

/-- `chooseServicePort` of the `sync` package kube deriver (the variant used by
`SyncKube`): when the port annot is present and non-blank, the parsed value is
returned unconditionally — an invalid value only logs the "falling back"
warning, it does not fall back (`strconv.Atoi` yields 0 on error, so the
function returns 0 and the caller skips the service). -/
def chooseServicePort (portAnnot : Option String) (ports : List Int) : Int :=
  let fallback :=
    match ports with
    | [] => 0
    | p :: _ => p
  match portAnnot with
  | some raw0 =>
      if strTrim raw0 != "" then
        let raw := strTrim raw0
        let val : Int := (goAtoi raw).getD 0
        toInt32 val
      else fallback
  | none => fallback

/-- `chooseServicePort` of `cmd/tunnel-manager/main.go`: the valid annot value
is returned; an invalid one falls through to the first declared port; with no
port at all the result is 0 and the caller skips the service. -/
def chooseServicePortMain (portAnnot : Option String) (ports : List Int) : Int :=
  let fallback :=
    match ports with
    | [] => 0
    | p :: _ => p
  match portAnnot with
  | some raw0 =>
      if strTrim raw0 != "" then
        let raw := strTrim raw0
        match goAtoi raw with
        | some val => if val ≤ 0 || 65535 < val then fallback else toInt32 val
        | none => fallback
      else fallback
  | none => fallback

/-! ## dns.go: `SyncDNS` — zone distribution, call trace, failure semantics -/

/-- The provider-side state: zone id mapped to the zone's DNS records. -/
abbrev World : Type := List (String × List dnsRecord)

/-- The records the provider returns when listing a zone's records. -/
def worldRecords (w : World) (zoneID : String) : List dnsRecord :=
  (assocLookup w zoneID).getD []

/-- The world after a zone's record set is replaced. -/
def worldUpdate (w : World) (zoneID : String) (recs : List dnsRecord) : World :=
  upsert w zoneID recs

/-- An API call issued by `SyncDNS` (zone listing, per-zone record listing, or
a mutating record call). -/
inductive apiCall where
  | listZonesCall
  | listRecordsCall (zoneID : String)
  | mutateCall (zoneID : String) (act : dnsAction)
deriving DecidableEq, Repr

/-- The `zoneIDByName` index of `SyncDNS`. -/
def zoneIDByName (zones : List zoneSummary) : List (String × String) :=
  zones.foldl (fun m z => upsert m z.name z.id) []

/-- `zoneHosts[zoneName] = append(zoneHosts[zoneName], hostNorm)`. -/
def appendAt : List (String × List String) → String → String → List (String × List String)
  | [], k, v => [(k, [v])]
  | (k0, vs) :: rest, k, v =>
      if k0 == k then (k0, vs ++ [v]) :: rest else (k0, vs) :: appendAt rest k v

/-- Step 2 of `SyncDNS`: distribute the desired hostnames across zones by best
suffix match, skipping hostnames that normalize to `""` or match no zone. -/
def zoneHostsOf (state : List (String × String)) (zones : List zoneSummary) :
    List (String × List String) :=
  state.foldl
    (fun zh p =>
      let hostNorm := normalizeHost p.1
      if hostNorm == "" then zh
      else
        let zoneName := bestMatchingZone hostNorm zones
        if zoneName == "" then zh else appendAt zh zoneName hostNorm)
    []

/-- An error returned by `SyncDNS`: `fmt.Errorf("sync zone %s (%s): %w", ...)`
wrapping the failed record call, so it names the zone and the record. -/
structure SyncErr where
  zoneName : String
  zoneID : String
  failedAction : dnsAction
deriving DecidableEq, Repr

/-- Run the mutating calls of one zone against a failure oracle: returns the
zone's record set after the applied calls, the calls attempted (the failing
one included), and the failing call, if any; calls after a failure are never
attempted. -/
def runZoneCalls (fails : String → dnsAction → Bool) (zoneID : String) :
    List dnsRecord → List dnsAction → List dnsRecord × List dnsAction × Option dnsAction
  | recs, [] => (recs, [], none)
  | recs, a :: rest =>
      if fails zoneID a then (recs, [a], some a)
      else
        let r := runZoneCalls fails zoneID (applyAction recs a) rest
        (r.1, a :: r.2.1, r.2.2)

/-- Step 3 of `SyncDNS`: the per-zone loop.  Each zone is listed and diffed;
a failed record call aborts the loop with an error naming the zone, leaving
the mutations already applied (its own and those of earlier zones) in place;
a zone whose id is unknown is skipped. -/
def processZones (fails : String → dnsAction → Bool) (target : String)
    (idByName : List (String × String)) :
    World → List (String × List String) → World × List apiCall × Option SyncErr
  | w, [] => (w, [], none)
  | w, (zoneName, hosts) :: rest =>
      let zid := (assocLookup idByName zoneName).getD ""
      if zid == "" then processZones fails target idByName w rest
      else
        let recs := worldRecords w zid
        let acts := syncZoneActions hosts target recs
        let r := runZoneCalls fails zid recs acts
        match r.2.2 with
        | some a =>
            (worldUpdate w zid r.1,
             apiCall.listRecordsCall zid :: r.2.1.map (apiCall.mutateCall zid),
             some ⟨zoneName, zid, a⟩)
        | none =>
            let rec' := processZones fails target idByName (worldUpdate w zid r.1) rest
            (rec'.1,
             apiCall.listRecordsCall zid :: r.2.1.map (apiCall.mutateCall zid) ++ rec'.2.1,
             rec'.2.2)

/-- `SyncDNS` from `internal/sync/dns.go`, as a function of the desired state,
the zones the provider reports, the tunnel id, the failure oracle and the
provider world: returns the final world, the trace of API calls issued, and
the error, if any.  An empty (or nil) `HostToService` returns immediately,
before any API call; an empty zone list stops after the zone listing. -/
def SyncDNS (fails : String → dnsAction → Bool) (state : SyncState)
    (zones : List zoneSummary) (tunnelID : String) (w : World) :
    World × List apiCall × Option SyncErr :=
  if state.HostToService.isEmpty then (w, [], none)
  else
    let target := tunnelID ++ ".cfargotunnel.com"
    if zones.isEmpty then (w, [apiCall.listZonesCall], none)
    else
      let r := processZones fails target (zoneIDByName zones) w
        (zoneHostsOf state.HostToService zones)
      (r.1, apiCall.listZonesCall :: r.2.1, r.2.2)

/-- The ids of the zones `SyncDNS` actually processes: zones that received at
least one desired hostname by suffix match and whose id is known. -/
def zonePassIds (idByName : List (String × String)) (zh : List (String × List String)) :
    List String :=
  zh.filterMap fun p =>
    let zid := (assocLookup idByName p.1).getD ""
    if zid == "" then none else some zid

/-- The zone id a non-`listZonesCall` call addresses. -/
def callZoneId : apiCall → Option String
  | .listZonesCall => none
  | .listRecordsCall zid => some zid
  | .mutateCall zid _ => some zid

/-- Distinct normalized CNAME names (DNS allows at most one CNAME per name,
which the spec assumes): two CNAME records with equal normalized names are the
same record. -/
abbrev cnameNamesNodup (records : List dnsRecord) : Prop :=
  ((records.filter fun r => r.type == "CNAME").map fun r => normalizeHost r.name).Nodup

/-- Record ids are pairwise distinct (the DNS provider's invariant). -/
abbrev recordIdsNodup (records : List dnsRecord) : Prop :=
  (records.map dnsRecord.id).Nodup

/-- Does the action address the record with this id? -/
def recTouch (a : dnsAction) (rid : String) : Bool :=
  match a with
  | .deleteRecord i _ => i == rid
  | .updateRecord i _ _ => i == rid
  | .createRecord _ _ => false

/-- The record id an action addresses, if any. -/
def actionId : dnsAction → Option String
  | .deleteRecord i _ => some i
  | .updateRecord i _ _ => some i
  | .createRecord _ _ => none

/-- Is the action a record creation? -/
def isCreate : dnsAction → Bool
  | .createRecord _ _ => true
  | _ => false

/-- A record after the PATCH of `updateCNAMERecordTarget`. -/
def updTo (r : dnsRecord) (t : String) : dnsRecord :=
  { r with content := t, comment := managedCommentMarker }

/-- The record a `createRecord` call adds, if the action is one. -/
def createdRec : dnsAction → Option dnsRecord
  | .createRecord h t => some ⟨"new-" ++ h, "CNAME", h, t, managedCommentMarker⟩
  | _ => none

/-- The evolution of a single record under a sequence of delete/update calls
(creations do not affect existing records). -/
def transform : List dnsAction → dnsRecord → Option dnsRecord
  | [], r => some r
  | .deleteRecord i _ :: rest, r => if r.id == i then none else transform rest r
  | .updateRecord i _ t :: rest, r =>
      transform rest (if r.id == i then updTo r t else r)
  | .createRecord _ _ :: rest, r => transform rest r

/-- The first loop of `syncZoneRecords` (existing CNAMEs). -/
def phase1 (hosts : List String) (target : String) (records : List dnsRecord) :
    List dnsAction :=
  (cnameByName records).filterMap (existingCnameAction hosts target)

/-- The second loop of `syncZoneRecords` (creation of missing CNAMEs). -/
def phase2 (hosts : List String) (target : String) (records : List dnsRecord) :
    List dnsAction :=
  hosts.filterMap (missingHostAction records hosts target)

/-! ## Lemmas: association lists and the `cnameByName` index -/

theorem assocLookup_upsert_self {α : Type} (m : List (String × α)) (k : String) (v : α) :
    assocLookup (upsert m k v) k = some v := by
  induction m with
  | nil => simp [upsert, assocLookup]
  | cons p rest ih =>
      obtain ⟨k0, v0⟩ := p
      by_cases hk : k0 = k
      · simp [upsert, assocLookup, hk]
      · simp [upsert, assocLookup, hk, ih]

theorem assocLookup_upsert_ne {α : Type} (m : List (String × α)) (k k' : String) (v : α)
    (h : k' ≠ k) : assocLookup (upsert m k v) k' = assocLookup m k' := by
  induction m with
  | nil =>
      have : ¬(k = k') := fun hh => h hh.symm
      simp [upsert, assocLookup, this]
  | cons p rest ih =>
      obtain ⟨k0, v0⟩ := p
      by_cases hk : k0 = k
      · subst hk
        have : ¬(k0 = k') := fun hh => h hh.symm
        simp [upsert, assocLookup, this]
      · by_cases hk' : k0 = k'
        · subst hk'
          simp [upsert, assocLookup, hk, h]
        · simp [upsert, assocLookup, hk, hk', ih]

theorem mem_upsert_elim {α : Type} {m : List (String × α)} {k : String} {v : α}
    {p : String × α} (h : p ∈ upsert m k v) : p ∈ m ∨ p = (k, v) := by
  induction m with
  | nil => simpa [upsert] using h
  | cons q rest ih =>
      obtain ⟨k0, v0⟩ := q
      by_cases hk : k0 = k
      · simp only [upsert, hk, beq_self_eq_true, if_true, List.mem_cons] at h
        rcases h with h | h
        · right; exact h
        · left; exact List.mem_cons_of_mem _ h
      · simp only [upsert, beq_iff_eq, hk, if_false, List.mem_cons] at h
        rcases h with h | h
        · left; exact List.mem_cons.2 (Or.inl h)
        · rcases ih h with h' | h'
          · left; exact List.mem_cons_of_mem _ h'
          · right; exact h'

theorem fst_mem_upsert_self {α : Type} (m : List (String × α)) (k : String) (v : α) :
    k ∈ (upsert m k v).map Prod.fst := by
  induction m with
  | nil => simp [upsert]
  | cons q rest ih =>
      obtain ⟨k0, v0⟩ := q
      by_cases hk : k0 = k
      · simp [upsert, hk]
      · simp only [upsert, beq_iff_eq, hk, if_false, List.map_cons, List.mem_cons]
        exact Or.inr ih

theorem fst_mem_upsert_mono {α : Type} {m : List (String × α)} {k' : String}
    (k : String) (v : α) (h : k' ∈ m.map Prod.fst) : k' ∈ (upsert m k v).map Prod.fst := by
  induction m with
  | nil => simp at h
  | cons q rest ih =>
      obtain ⟨k0, v0⟩ := q
      simp only [List.map_cons, List.mem_cons] at h
      by_cases hk : k0 = k
      · subst hk
        simp only [upsert, beq_self_eq_true, if_true, List.map_cons, List.mem_cons]
        exact h
      · simp only [upsert, beq_iff_eq, hk, if_false, List.map_cons, List.mem_cons]
        rcases h with h | h
        · exact Or.inl h
        · exact Or.inr (ih h)

theorem keys_nodup_upsert {α : Type} {m : List (String × α)} (k : String) (v : α)
    (h : (m.map Prod.fst).Nodup) : ((upsert m k v).map Prod.fst).Nodup := by
  induction m with
  | nil => simp [upsert]
  | cons q rest ih =>
      obtain ⟨k0, v0⟩ := q
      simp only [List.map_cons, List.nodup_cons] at h
      by_cases hk : k0 = k
      · simp only [upsert, hk, beq_self_eq_true, if_true, List.map_cons, List.nodup_cons]
        exact ⟨by simpa [hk] using h.1, h.2⟩
      · simp only [upsert, beq_iff_eq, hk, if_false, List.map_cons, List.nodup_cons]
        refine ⟨?_, ih h.2⟩
        intro hmem
        simp only [List.mem_map] at hmem
        obtain ⟨p, hp, hpk⟩ := hmem
        rcases mem_upsert_elim hp with h' | h'
        · exact h.1 (List.mem_map.2 ⟨p, h', hpk⟩)
        · rw [h'] at hpk
          exact hk (by simpa using hpk.symm)

theorem mem_foldl_cnameStep {l : List dnsRecord} :
    ∀ {m : List (String × dnsRecord)} {p : String × dnsRecord}, p ∈ l.foldl cnameStep m →
      p ∈ m ∨ (p.2 ∈ l ∧ p.2.type = "CNAME" ∧ p.1 = normalizeHost p.2.name) := by
  induction l with
  | nil => intro m p h; exact Or.inl (by simpa using h)
  | cons r t ih =>
      intro m p h
      rw [List.foldl_cons] at h
      rcases ih h with h' | h'
      · by_cases hty : r.type == "CNAME"
        · rw [cnameStep, if_pos hty] at h'
          rcases mem_upsert_elim h' with h'' | h''
          · exact Or.inl h''
          · refine Or.inr ⟨?_, ?_, ?_⟩
            · rw [h'']; exact List.mem_cons_self _ _
            · rw [h'']; exact beq_iff_eq.1 hty
            · rw [h'']
        · rw [cnameStep, if_neg hty] at h'
          exact Or.inl h'
      · exact Or.inr ⟨List.mem_cons_of_mem _ h'.1, h'.2⟩

/-- Every entry of the `cnameByName` index is a CNAME record of the zone,
indexed under its normalized name. -/
theorem mem_cnameByName_elim {records : List dnsRecord} {p : String × dnsRecord}
    (h : p ∈ cnameByName records) :
    p.2 ∈ records ∧ p.2.type = "CNAME" ∧ p.1 = normalizeHost p.2.name := by
  rcases mem_foldl_cnameStep h with h' | h'
  · simp at h'
  · exact h'

theorem keys_nodup_foldl_cnameStep (l : List dnsRecord) :
    ∀ m : List (String × dnsRecord), (m.map Prod.fst).Nodup →
      ((l.foldl cnameStep m).map Prod.fst).Nodup := by
  induction l with
  | nil => intro m h; simpa using h
  | cons r t ih =>
      intro m h
      rw [List.foldl_cons]
      refine ih _ ?_
      by_cases hty : r.type == "CNAME"
      · rw [cnameStep, if_pos hty]; exact keys_nodup_upsert _ _ h
      · rwa [cnameStep, if_neg hty]

/-- The `cnameByName` index has pairwise distinct keys (it models a Go map). -/
theorem cnameByName_keys_nodup (records : List dnsRecord) :
    ((cnameByName records).map Prod.fst).Nodup :=
  keys_nodup_foldl_cnameStep records [] (by simp)

theorem key_mem_foldl_cnameStep_mono (l : List dnsRecord) :
    ∀ {m : List (String × dnsRecord)} {k : String}, k ∈ m.map Prod.fst →
      k ∈ (l.foldl cnameStep m).map Prod.fst := by
  induction l with
  | nil => intro m k h; simpa using h
  | cons r t ih =>
      intro m k h
      rw [List.foldl_cons]
      refine ih ?_
      by_cases hty : r.type == "CNAME"
      · rw [cnameStep, if_pos hty]; exact fst_mem_upsert_mono _ _ h
      · rwa [cnameStep, if_neg hty]

theorem key_complete_foldl_cnameStep {r : dnsRecord} (hty : r.type = "CNAME") :
    ∀ (l : List dnsRecord) (m : List (String × dnsRecord)), r ∈ l →
      normalizeHost r.name ∈ (l.foldl cnameStep m).map Prod.fst := by
  intro l
  induction l with
  | nil => intro m hr; simp at hr
  | cons r0 t ih =>
      intro m hr
      rw [List.foldl_cons]
      rcases List.mem_cons.1 hr with h | h
      · subst h
        refine key_mem_foldl_cnameStep_mono t ?_
        rw [cnameStep, if_pos (beq_iff_eq.2 hty)]
        exact fst_mem_upsert_self _ _ _
      · exact ih _ h

/-- Every CNAME record of the zone has an entry under its normalized name. -/
theorem cnameByName_key_complete {records : List dnsRecord} {r : dnsRecord}
    (hr : r ∈ records) (hty : r.type = "CNAME") :
    normalizeHost r.name ∈ (cnameByName records).map Prod.fst :=
  key_complete_foldl_cnameStep hty records [] hr

theorem cname_inj {records : List dnsRecord} (hcn : cnameNamesNodup records)
    {r r' : dnsRecord} (hr : r ∈ records) (hr' : r' ∈ records)
    (hty : r.type = "CNAME") (hty' : r'.type = "CNAME")
    (hname : normalizeHost r.name = normalizeHost r'.name) : r = r' :=
  List.inj_on_of_nodup_map hcn
    (List.mem_filter.2 ⟨hr, beq_iff_eq.2 hty⟩)
    (List.mem_filter.2 ⟨hr', beq_iff_eq.2 hty'⟩) hname

/-- Under distinct normalized CNAME names, every CNAME record is exactly the
value its key maps to in the `cnameByName` index. -/
theorem cnameByName_entry_of_mem {records : List dnsRecord} (hcn : cnameNamesNodup records)
    {r : dnsRecord} (hr : r ∈ records) (hty : r.type = "CNAME") :
    (normalizeHost r.name, r) ∈ cnameByName records := by
  have hk := cnameByName_key_complete hr hty
  obtain ⟨p, hp, hpk⟩ := List.mem_map.1 hk
  obtain ⟨hmem, hmty, hmk⟩ := mem_cnameByName_elim hp
  have : p.2 = r := cname_inj hcn hmem hr hmty hty (by rw [← hmk, hpk])
  have hp2 : p = (normalizeHost r.name, r) := by
    obtain ⟨p1, p2⟩ := p
    simp only at hpk hmk this ⊢
    rw [← hpk, this]
  rwa [hp2] at hp

theorem record_id_inj {records : List dnsRecord} (hids : recordIdsNodup records)
    {r r' : dnsRecord} (hr : r ∈ records) (hr' : r' ∈ records)
    (hid : r.id = r'.id) : r = r' :=
  List.inj_on_of_nodup_map hids hr hr' hid

/-- `filterMap` results are distinct as soon as some projection separates the
underlying elements and determines the produced values. -/
theorem nodup_filterMap_of {α β γ : Type} {l : List α} {g : α → Option β} {f : α → γ}
    (h : β → γ) (hg : ∀ a ∈ l, ∀ b, g a = some b → h b = f a)
    (hf : (l.map f).Nodup) : (l.filterMap g).Nodup := by
  induction l with
  | nil => simp
  | cons a t ih =>
      simp only [List.map_cons, List.nodup_cons] at hf
      have hgt : ∀ a' ∈ t, ∀ b, g a' = some b → h b = f a' :=
        fun a' ha' => hg a' (List.mem_cons_of_mem _ ha')
      cases hga : g a with
      | none => rw [List.filterMap_cons_none hga]; exact ih hgt hf.2
      | some b =>
          rw [List.filterMap_cons_some hga]
          refine List.nodup_cons.2 ⟨?_, ih hgt hf.2⟩
          intro hbmem
          obtain ⟨a', ha', hga'⟩ := List.mem_filterMap.1 hbmem
          have h1 : h b = f a := hg a (List.mem_cons_self _ _) b hga
          have h2 : h b = f a' := hgt a' ha' b hga'
          exact hf.1 (List.mem_map.2 ⟨a', ha', by rw [← h2, h1]⟩)

/-! ## Lemmas: applying mutation sequences to a record set -/

theorem filter_as_filterMap {α : Type} (p : α → Bool) (l : List α) :
    l.filter p = l.filterMap fun a => if p a then some a else none := by
  induction l with
  | nil => simp
  | cons a t ih =>
      by_cases hp : p a
      · rw [List.filter_cons_of_pos hp, List.filterMap_cons_some (by rw [if_pos hp]), ih]
      · rw [List.filter_cons_of_neg hp, List.filterMap_cons_none (by rw [if_neg hp]), ih]

/-- Applying a creation-free call sequence is per-record evolution. -/
theorem foldl_apply_mutOnly :
    ∀ acts : List dnsAction, (∀ a ∈ acts, isCreate a = false) →
      ∀ l : List dnsRecord, acts.foldl applyAction l = l.filterMap (transform acts) := by
  intro acts
  induction acts with
  | nil => intro _ l; simp [transform]
  | cons a rest ih =>
      intro hmut l
      have hrest : ∀ a' ∈ rest, isCreate a' = false :=
        fun a' ha' => hmut a' (List.mem_cons_of_mem _ ha')
      rw [List.foldl_cons, ih hrest]
      cases a with
      | deleteRecord i nm =>
          rw [applyAction, filter_as_filterMap, List.filterMap_filterMap]
          congr 1
          funext r
          by_cases hid : r.id == i
          · simp [bne, hid, transform]
          · simp [bne, hid, transform]
      | updateRecord i nm t =>
          rw [applyAction, List.filterMap_map]
          congr 1
      | createRecord h t =>
          exact absurd (hmut _ (List.mem_cons_self _ _)) (by simp [isCreate])

/-- Applying a sequence of creations appends the created records. -/
theorem foldl_apply_creates :
    ∀ acts : List dnsAction, (∀ a ∈ acts, isCreate a = true) →
      ∀ l : List dnsRecord, acts.foldl applyAction l = l ++ acts.filterMap createdRec := by
  intro acts
  induction acts with
  | nil => intro _ l; simp
  | cons a rest ih =>
      intro hcr l
      have hrest : ∀ a' ∈ rest, isCreate a' = true :=
        fun a' ha' => hcr a' (List.mem_cons_of_mem _ ha')
      cases a with
      | createRecord h t =>
          rw [List.foldl_cons, applyAction, ih hrest,
            List.filterMap_cons_some (by rw [createdRec]), List.append_assoc]
          rfl
      | deleteRecord i nm =>
          exact absurd (hcr _ (List.mem_cons_self _ _)) (by simp [isCreate])
      | updateRecord i nm t =>
          exact absurd (hcr _ (List.mem_cons_self _ _)) (by simp [isCreate])

theorem transform_no_touch :
    ∀ (acts : List dnsAction) (r : dnsRecord), (∀ a ∈ acts, recTouch a r.id = false) →
      transform acts r = some r := by
  intro acts
  induction acts with
  | nil => intro r _; rfl
  | cons a rest ih =>
      intro r hnt
      have hr : recTouch a r.id = false := hnt a (List.mem_cons_self _ _)
      have hrest : ∀ a' ∈ rest, recTouch a' r.id = false :=
        fun a' ha' => hnt a' (List.mem_cons_of_mem _ ha')
      cases a with
      | deleteRecord i nm =>
          rw [recTouch] at hr
          have : ¬(r.id == i) := by
            intro hc; rw [beq_iff_eq.1 hc] at hr; simp at hr
          rw [transform, if_neg this]
          exact ih r hrest
      | updateRecord i nm t =>
          rw [recTouch] at hr
          have : ¬(r.id == i) := by
            intro hc; rw [beq_iff_eq.1 hc] at hr; simp at hr
          rw [transform, if_neg this]
          exact ih r hrest
      | createRecord h t =>
          rw [transform]
          exact ih r hrest

theorem transform_delete_of {r : dnsRecord} {nm : String} (ys : List dnsAction) :
    ∀ xs : List dnsAction, (∀ a ∈ xs, recTouch a r.id = false) →
      transform (xs ++ dnsAction.deleteRecord r.id nm :: ys) r = none := by
  intro xs
  induction xs with
  | nil =>
      intro _
      rw [List.nil_append, transform, if_pos (beq_self_eq_true _)]
  | cons a xt ih =>
      intro hnt
      have ha : recTouch a r.id = false := hnt a (List.mem_cons_self _ _)
      have hxt : ∀ a' ∈ xt, recTouch a' r.id = false :=
        fun a' ha' => hnt a' (List.mem_cons_of_mem _ ha')
      cases a with
      | deleteRecord i nm' =>
          rw [recTouch] at ha
          have : ¬(r.id == i) := by
            intro hc; rw [beq_iff_eq.1 hc] at ha; simp at ha
          rw [List.cons_append, transform, if_neg this]
          exact ih hxt
      | updateRecord i nm' t =>
          rw [recTouch] at ha
          have : ¬(r.id == i) := by
            intro hc; rw [beq_iff_eq.1 hc] at ha; simp at ha
          rw [List.cons_append, transform, if_neg this]
          exact ih hxt
      | createRecord h t =>
          rw [List.cons_append, transform]
          exact ih hxt

theorem transform_update_of {r : dnsRecord} {nm t : String} (ys : List dnsAction)
    (hys : ∀ a ∈ ys, recTouch a r.id = false) :
    ∀ xs : List dnsAction, (∀ a ∈ xs, recTouch a r.id = false) →
      transform (xs ++ dnsAction.updateRecord r.id nm t :: ys) r = some (updTo r t) := by
  intro xs
  induction xs with
  | nil =>
      rw [List.nil_append, transform, if_pos (beq_self_eq_true _)]
      intro _
      exact transform_no_touch ys (updTo r t) (by simpa [updTo] using hys)
  | cons a xt ih =>
      intro hnt
      have ha : recTouch a r.id = false := hnt a (List.mem_cons_self _ _)
      have hxt : ∀ a' ∈ xt, recTouch a' r.id = false :=
        fun a' ha' => hnt a' (List.mem_cons_of_mem _ ha')
      cases a with
      | deleteRecord i nm' =>
          rw [recTouch] at ha
          have : ¬(r.id == i) := by
            intro hc; rw [beq_iff_eq.1 hc] at ha; simp at ha
          rw [List.cons_append, transform, if_neg this]
          exact ih hxt
      | updateRecord i nm' t' =>
          rw [recTouch] at ha
          have : ¬(r.id == i) := by
            intro hc; rw [beq_iff_eq.1 hc] at ha; simp at ha
          rw [List.cons_append, transform, if_neg this]
          exact ih hxt
      | createRecord h t' =>
          rw [List.cons_append, transform]
          exact ih hxt

/-! ## Lemmas: the two phases of `syncZoneRecords` -/

theorem syncZoneActions_eq (hosts : List String) (target : String)
    (records : List dnsRecord) :
    syncZoneActions hosts target records =
      phase1 hosts target records ++ phase2 hosts target records := rfl

theorem contains_iff {α : Type} [BEq α] [LawfulBEq α] {l : List α} {a : α} :
    l.contains a = true ↔ a ∈ l := by
  simp

/-- Case analysis of `existingCnameAction`, in the order of the Go `switch`. -/
theorem existingCnameAction_cases (hosts : List String) (target : String)
    (p : String × dnsRecord) :
    (hosts.contains p.1 = false ∧ isManagedComment p.2.comment = true ∧
        existingCnameAction hosts target p = some (.deleteRecord p.2.id p.1))
    ∨ (hosts.contains p.1 = true ∧ isManagedComment p.2.comment = true ∧
        equalDNSHost p.2.content target = false ∧
        existingCnameAction hosts target p = some (.updateRecord p.2.id p.1 target))
    ∨ ((isManagedComment p.2.comment = false ∨
          (hosts.contains p.1 = true ∧ equalDNSHost p.2.content target = true)) ∧
        existingCnameAction hosts target p = none) := by
  by_cases hS : p.1 ∈ hosts <;> by_cases hM : isManagedComment p.2.comment <;>
    by_cases hE : equalDNSHost p.2.content target
  · exact Or.inr (Or.inr ⟨Or.inr ⟨contains_iff.2 hS, hE⟩,
      by simp [existingCnameAction, hS, hM, hE]⟩)
  · exact Or.inr (Or.inl ⟨contains_iff.2 hS, hM, by simpa using hE,
      by simp [existingCnameAction, hS, hM, hE]⟩)
  · exact Or.inr (Or.inr ⟨Or.inl (by simpa using hM), by simp [existingCnameAction, hS, hM]⟩)
  · exact Or.inr (Or.inr ⟨Or.inl (by simpa using hM), by simp [existingCnameAction, hS, hM]⟩)
  · exact Or.inl ⟨by simpa using (fun hc => hS (contains_iff.1 hc) : hosts.contains p.1 = true → False),
      hM, by simp [existingCnameAction, hS, hM]⟩
  · exact Or.inl ⟨by simpa using (fun hc => hS (contains_iff.1 hc) : hosts.contains p.1 = true → False),
      hM, by simp [existingCnameAction, hS, hM]⟩
  · exact Or.inr (Or.inr ⟨Or.inl (by simpa using hM), by simp [existingCnameAction, hS, hM]⟩)
  · exact Or.inr (Or.inr ⟨Or.inl (by simpa using hM), by simp [existingCnameAction, hS, hM]⟩)

theorem existingCnameAction_id {hosts : List String} {target : String}
    {p : String × dnsRecord} {a : dnsAction}
    (h : existingCnameAction hosts target p = some a) : actionId a = some p.2.id := by
  rcases existingCnameAction_cases hosts target p with ⟨_, _, he⟩ | ⟨_, _, _, he⟩ | ⟨_, he⟩ <;>
    rw [he] at h
  · cases h; rfl
  · cases h; rfl
  · cases h

theorem existingCnameAction_not_create {hosts : List String} {target : String}
    {p : String × dnsRecord} {a : dnsAction}
    (h : existingCnameAction hosts target p = some a) : isCreate a = false := by
  rcases existingCnameAction_cases hosts target p with ⟨_, _, he⟩ | ⟨_, _, _, he⟩ | ⟨_, he⟩ <;>
    rw [he] at h
  · cases h; rfl
  · cases h; rfl
  · cases h

theorem phase1_mutOnly (hosts : List String) (target : String) (records : List dnsRecord) :
    ∀ a ∈ phase1 hosts target records, isCreate a = false := by
  intro a ha
  obtain ⟨p, _, hp⟩ := List.mem_filterMap.1 ha
  exact existingCnameAction_not_create hp

theorem missingHostAction_elim {records : List dnsRecord} {hosts : List String}
    {target host : String} {a : dnsAction}
    (h : missingHostAction records hosts target host = some a) :
    a = .createRecord host target ∧ (seenHosts records hosts).contains host = false ∧
      hasAorAAAA records host = false := by
  by_cases hs : (seenHosts records hosts).contains host
  · rw [missingHostAction, if_pos hs] at h; cases h
  · by_cases ha : hasAorAAAA records host
    · rw [missingHostAction, if_neg hs, if_pos ha] at h; cases h
    · rw [missingHostAction, if_neg hs, if_neg ha] at h
      exact ⟨(Option.some.injEq .. ▸ h).symm, by simpa using hs, by simpa using ha⟩

theorem phase2_creates (hosts : List String) (target : String) (records : List dnsRecord) :
    ∀ a ∈ phase2 hosts target records, isCreate a = true := by
  intro a ha
  obtain ⟨h, _, hp⟩ := List.mem_filterMap.1 ha
  rw [(missingHostAction_elim hp).1]
  rfl

theorem recTouch_actionId {a : dnsAction} {i : String} (h : recTouch a i = true) :
    actionId a = some i := by
  cases a with
  | deleteRecord j nm => rw [recTouch] at h; rw [actionId, beq_iff_eq.1 h]
  | updateRecord j nm t => rw [recTouch] at h; rw [actionId, beq_iff_eq.1 h]
  | createRecord h' t => rw [recTouch] at h; cases h

theorem entries_ids_nodup {records : List dnsRecord} (hids : recordIdsNodup records) :
    ((cnameByName records).map fun p => p.2.id).Nodup := by
  have hkeys := cnameByName_keys_nodup records
  have hent : (cnameByName records).Nodup := hkeys.of_map
  refine hent.map_on ?_
  intro p hp q hq hpq
  obtain ⟨hpm, _, hpk⟩ := mem_cnameByName_elim hp
  obtain ⟨hqm, _, hqk⟩ := mem_cnameByName_elim hq
  have h2 : p.2 = q.2 := record_id_inj hids hpm hqm hpq
  have h1 : p.1 = q.1 := by rw [hpk, hqk, h2]
  obtain ⟨p1, p2⟩ := p
  obtain ⟨q1, q2⟩ := q
  simp only at h1 h2
  rw [h1, h2]

theorem phase1_nodup {records : List dnsRecord} (hosts : List String) (target : String)
    (hids : recordIdsNodup records) : (phase1 hosts target records).Nodup := by
  refine nodup_filterMap_of actionId (fun p _ a ha => existingCnameAction_id ha) ?_
  have h1 := (entries_ids_nodup hids).map (Option.some_injective String)
  rw [List.map_map] at h1
  exact h1

theorem phase1_touch_unique {records : List dnsRecord} {hosts : List String}
    {target : String} {r : dnsRecord} {a : dnsAction} (hids : recordIdsNodup records)
    (hr : r ∈ records) (ha : a ∈ phase1 hosts target records)
    (ht : recTouch a r.id = true) :
    r.type = "CNAME" ∧ existingCnameAction hosts target (normalizeHost r.name, r) = some a := by
  obtain ⟨p, hp, he⟩ := List.mem_filterMap.1 ha
  have hid1 : actionId a = some p.2.id := existingCnameAction_id he
  have hid2 : actionId a = some r.id := recTouch_actionId ht
  obtain ⟨hpm, hpty, hpk⟩ := mem_cnameByName_elim hp
  have h2 : p.2 = r :=
    record_id_inj hids hpm hr (by rw [hid1] at hid2; exact Option.some.inj hid2)
  have hp' : p = (normalizeHost r.name, r) := by
    obtain ⟨p1, p2⟩ := p
    simp only at hpk h2
    rw [hpk, h2]
  rw [hp'] at he
  rw [h2] at hpty
  exact ⟨hpty, he⟩

/-- A record addressed by no action of the first loop survives it unchanged. -/
theorem transform_phase1_untouched {records : List dnsRecord} {hosts : List String}
    {target : String} {r : dnsRecord} (hids : recordIdsNodup records) (hr : r ∈ records)
    (hcase : r.type ≠ "CNAME" ∨
      existingCnameAction hosts target (normalizeHost r.name, r) = none) :
    transform (phase1 hosts target records) r = some r := by
  refine transform_no_touch _ r ?_
  intro a ha
  cases ht : recTouch a r.id with
  | false => rfl
  | true =>
      obtain ⟨hty, he⟩ := phase1_touch_unique hids hr ha ht
      rcases hcase with hc | hc
      · exact absurd hty hc
      · rw [hc] at he; cases he

/-- An orphaned managed CNAME is removed by the first loop. -/
theorem transform_phase1_delete {records : List dnsRecord} {hosts : List String}
    {target : String} {r : dnsRecord} (hids : recordIdsNodup records)
    (hcn : cnameNamesNodup records) (hr : r ∈ records) (hty : r.type = "CNAME")
    (hS : hosts.contains (normalizeHost r.name) = false)
    (hM : isManagedComment r.comment = true) :
    transform (phase1 hosts target records) r = none := by
  have he : existingCnameAction hosts target (normalizeHost r.name, r) =
      some (.deleteRecord r.id (normalizeHost r.name)) := by
    rcases existingCnameAction_cases hosts target (normalizeHost r.name, r) with
      ⟨_, _, h⟩ | ⟨h1, _, _, _⟩ | ⟨h1, _⟩
    · exact h
    · rw [hS] at h1; cases h1
    · rcases h1 with h1 | h1
      · rw [hM] at h1; cases h1
      · rw [hS] at h1; exact absurd h1.1 (by simp)
  have ha : (dnsAction.deleteRecord r.id (normalizeHost r.name)) ∈ phase1 hosts target records :=
    List.mem_filterMap.2 ⟨_, cnameByName_entry_of_mem hcn hr hty, he⟩
  obtain ⟨xs, ys, hsplit⟩ := List.append_of_mem ha
  have hnd := phase1_nodup hosts target hids
  rw [hsplit] at hnd
  have hdisj := (List.nodup_append.1 hnd).2.2
  have hxs : ∀ b ∈ xs, recTouch b r.id = false := by
    intro b hb
    cases hbt : recTouch b r.id with
    | false => rfl
    | true =>
        have hbmem : b ∈ phase1 hosts target records := by
          rw [hsplit]
          exact List.mem_append.2 (Or.inl hb)
        obtain ⟨_, heb⟩ := phase1_touch_unique hids hr hbmem hbt
        rw [he] at heb
        have hba : b = dnsAction.deleteRecord r.id (normalizeHost r.name) :=
          (Option.some.inj heb).symm
        rw [hba] at hb
        exact absurd (List.mem_cons_self _ _) (fun hc => hdisj hb hc)
  rw [hsplit]
  exact transform_delete_of ys xs hxs

/-- A desired managed CNAME with stale content is rewritten to the target by
the first loop. -/
theorem transform_phase1_update {records : List dnsRecord} {hosts : List String}
    {target : String} {r : dnsRecord} (hids : recordIdsNodup records)
    (hcn : cnameNamesNodup records) (hr : r ∈ records) (hty : r.type = "CNAME")
    (hS : hosts.contains (normalizeHost r.name) = true)
    (hM : isManagedComment r.comment = true)
    (hE : equalDNSHost r.content target = false) :
    transform (phase1 hosts target records) r = some (updTo r target) := by
  have he : existingCnameAction hosts target (normalizeHost r.name, r) =
      some (.updateRecord r.id (normalizeHost r.name) target) := by
    rcases existingCnameAction_cases hosts target (normalizeHost r.name, r) with
      ⟨h1, _, _⟩ | ⟨_, _, _, h⟩ | ⟨h1, _⟩
    · rw [hS] at h1; cases h1
    · exact h
    · rcases h1 with h1 | h1
      · rw [hM] at h1; cases h1
      · rw [hE] at h1; exact absurd h1.2 (by simp)
  have ha : (dnsAction.updateRecord r.id (normalizeHost r.name) target)
      ∈ phase1 hosts target records :=
    List.mem_filterMap.2 ⟨_, cnameByName_entry_of_mem hcn hr hty, he⟩
  obtain ⟨xs, ys, hsplit⟩ := List.append_of_mem ha
  have hnd := phase1_nodup hosts target hids
  rw [hsplit] at hnd
  have hdisj := (List.nodup_append.1 hnd).2.2
  have hys' := (List.nodup_append.1 hnd).2.1
  have huniq : ∀ b, b ∈ phase1 hosts target records → recTouch b r.id = true →
      b = dnsAction.updateRecord r.id (normalizeHost r.name) target := by
    intro b hb hbt
    obtain ⟨_, heb⟩ := phase1_touch_unique hids hr hb hbt
    rw [he] at heb
    exact (Option.some.inj heb).symm
  have hxs : ∀ b ∈ xs, recTouch b r.id = false := by
    intro b hb
    cases hbt : recTouch b r.id with
    | false => rfl
    | true =>
        have hbmem : b ∈ phase1 hosts target records := by
          rw [hsplit]
          exact List.mem_append.2 (Or.inl hb)
        have hba := huniq b hbmem hbt
        rw [hba] at hb
        exact absurd (List.mem_cons_self _ _) (fun hc => hdisj hb hc)
  have hys : ∀ b ∈ ys, recTouch b r.id = false := by
    intro b hb
    cases hbt : recTouch b r.id with
    | false => rfl
    | true =>
        have hbmem : b ∈ phase1 hosts target records := by
          rw [hsplit]
          exact List.mem_append.2 (Or.inr (List.mem_cons_of_mem _ hb))
        have hba := huniq b hbmem hbt
        rw [hba] at hb
        exact absurd hb (List.nodup_cons.1 hys').1
  rw [hsplit]
  exact transform_update_of ys hys xs hxs

/-- The full effect of a successful `syncZoneRecords` run on the record set:
per-record evolution under the first loop, then the created records. -/
theorem runZoneSync_char (hosts : List String) (target : String) (records : List dnsRecord) :
    runZoneSync hosts target records =
      records.filterMap (transform (phase1 hosts target records))
        ++ (phase2 hosts target records).filterMap createdRec := by
  rw [runZoneSync, syncZoneActions_eq, List.foldl_append,
    foldl_apply_mutOnly _ (phase1_mutOnly hosts target records),
    foldl_apply_creates _ (phase2_creates hosts target records)]

/-! ## Lemmas: convergence of `syncZoneRecords` -/

theorem equalDNSHost_refl (a : String) : equalDNSHost a a = true := by
  simp [equalDNSHost]

theorem isManagedComment_marker : isManagedComment managedCommentMarker = true := by decide

theorem eca_none_unmanaged {hosts : List String} {target : String} {p : String × dnsRecord}
    (hM : isManagedComment p.2.comment = false) :
    existingCnameAction hosts target p = none := by
  rcases existingCnameAction_cases hosts target p with ⟨_, h, _⟩ | ⟨_, h, _, _⟩ | ⟨_, h⟩
  · rw [hM] at h; cases h
  · rw [hM] at h; cases h
  · exact h

theorem eca_none_ok {hosts : List String} {target : String} {p : String × dnsRecord}
    (hS : hosts.contains p.1 = true) (hE : equalDNSHost p.2.content target = true) :
    existingCnameAction hosts target p = none := by
  rcases existingCnameAction_cases hosts target p with ⟨h, _, _⟩ | ⟨_, _, h, _⟩ | ⟨_, h⟩
  · rw [hS] at h; cases h
  · rw [hE] at h; cases h
  · exact h

theorem seenHosts_intro {records : List dnsRecord} {hosts : List String} {h : String}
    {p : String × dnsRecord} (hp : p ∈ cnameByName records) (hk : p.1 = h)
    (hh : h ∈ hosts) : h ∈ seenHosts records hosts :=
  List.mem_filterMap.2 ⟨p, hp, by rw [hk, if_pos (contains_iff.2 hh)]⟩

theorem seenHosts_elim {records : List dnsRecord} {hosts : List String} {h : String}
    (hs : h ∈ seenHosts records hosts) :
    ∃ p ∈ cnameByName records, p.1 = h ∧ h ∈ hosts := by
  obtain ⟨p, hp, hcond⟩ := List.mem_filterMap.1 hs
  by_cases hc : hosts.contains p.1
  · rw [if_pos hc] at hcond
    have hk := Option.some.inj hcond
    exact ⟨p, hp, hk, hk ▸ contains_iff.1 hc⟩
  · rw [if_neg hc] at hcond; cases hcond

theorem hasA_intro {records : List dnsRecord} {h : String} {ra : dnsRecord}
    (hra : ra ∈ records) (hty : ra.type = "A" ∨ ra.type = "AAAA")
    (hname : normalizeHost ra.name = h) : hasAorAAAA records h = true := by
  refine List.any_eq_true.2 ⟨ra, hra, ?_⟩
  rcases hty with hty | hty <;> simp [hty, hname]

theorem hasA_elim {records : List dnsRecord} {h : String}
    (ha : hasAorAAAA records h = true) :
    ∃ ra ∈ records, (ra.type = "A" ∨ ra.type = "AAAA") ∧ normalizeHost ra.name = h := by
  obtain ⟨ra, hra, hcond⟩ := List.any_eq_true.1 ha
  simp only [Bool.and_eq_true, Bool.or_eq_true, beq_iff_eq] at hcond
  exact ⟨ra, hra, hcond.1, hcond.2⟩

/-- Every record surviving one full `syncZoneRecords` run that is a managed
CNAME is desired and already points at the target. -/
theorem runZoneSync_inv {records : List dnsRecord} (hosts : List String) (target : String)
    (hn : ∀ h ∈ hosts, normalizeHost h = h)
    (hids : recordIdsNodup records) (hcn : cnameNamesNodup records) :
    ∀ r' ∈ runZoneSync hosts target records, r'.type = "CNAME" →
      isManagedComment r'.comment = true →
      hosts.contains (normalizeHost r'.name) = true ∧
        equalDNSHost r'.content target = true := by
  intro r' hr' hty' hM'
  rw [runZoneSync_char] at hr'
  rcases List.mem_append.1 hr' with hmem | hmem
  · obtain ⟨r, hr, htr⟩ := List.mem_filterMap.1 hmem
    by_cases hty : r.type = "CNAME"
    · by_cases hM : isManagedComment r.comment
      · by_cases hS : hosts.contains (normalizeHost r.name)
        · by_cases hE : equalDNSHost r.content target
          · rw [transform_phase1_untouched hids hr
              (Or.inr (@eca_none_ok hosts target (normalizeHost r.name, r) hS hE))] at htr
            have hrr : r = r' := Option.some.inj htr
            rw [← hrr]
            exact ⟨hS, hE⟩
          · rw [transform_phase1_update hids hcn hr hty hS hM (by simpa using hE)] at htr
            have hrr : updTo r target = r' := Option.some.inj htr
            rw [← hrr]
            exact ⟨hS, equalDNSHost_refl target⟩
        · rw [transform_phase1_delete hids hcn hr hty (by simpa using hS) hM] at htr
          cases htr
      · rw [transform_phase1_untouched hids hr
          (Or.inr (@eca_none_unmanaged hosts target (normalizeHost r.name, r) (by simpa using hM)))]
          at htr
        have hrr : r = r' := Option.some.inj htr
        rw [← hrr] at hM'
        exact absurd hM' (by simpa using hM)
    · rw [transform_phase1_untouched hids hr (Or.inl hty)] at htr
      have hrr : r = r' := Option.some.inj htr
      rw [← hrr] at hty'
      exact absurd hty' hty
  · obtain ⟨a, ha, hca⟩ := List.mem_filterMap.1 hmem
    obtain ⟨h', hh', hma⟩ := List.mem_filterMap.1 ha
    obtain ⟨hash, _, _⟩ := missingHostAction_elim hma
    rw [hash] at hca
    rw [createdRec] at hca
    have hrc := Option.some.inj hca
    rw [← hrc]
    refine ⟨?_, equalDNSHost_refl target⟩
    show hosts.contains (normalizeHost h') = true
    rw [hn h' hh']
    exact contains_iff.2 hh'

/-- After one full `syncZoneRecords` run, every desired hostname is covered:
the creation loop of a second run does nothing. -/
theorem runZoneSync_covered {records : List dnsRecord} (hosts : List String) (target : String)
    (hn : ∀ h ∈ hosts, normalizeHost h = h)
    (hids : recordIdsNodup records) (hcn : cnameNamesNodup records) :
    ∀ h ∈ hosts,
      missingHostAction (runZoneSync hosts target records) hosts target h = none := by
  intro h hh
  have hkey : (∃ rc ∈ runZoneSync hosts target records,
      rc.type = "CNAME" ∧ normalizeHost rc.name = h) ∨
      hasAorAAAA (runZoneSync hosts target records) h = true := by
    by_cases hseen : h ∈ seenHosts records hosts
    · obtain ⟨p, hp, hk, _⟩ := seenHosts_elim hseen
      obtain ⟨hpm, hpty, hpk⟩ := mem_cnameByName_elim hp
      rcases existingCnameAction_cases hosts target p with
        ⟨h1, _, _⟩ | ⟨h1, h2, h3, _⟩ | ⟨_, hnone⟩
      · rw [hk] at h1
        rw [contains_iff.2 hh] at h1
        cases h1
      · left
        refine ⟨updTo p.2 target, ?_, hpty, by
          show normalizeHost p.2.name = h
          rw [← hpk, hk]⟩
        rw [runZoneSync_char]
        refine List.mem_append.2 (Or.inl (List.mem_filterMap.2 ⟨p.2, hpm, ?_⟩))
        exact transform_phase1_update hids hcn hpm hpty (by rw [← hpk]; exact hk ▸ h1)
          h2 h3
      · left
        refine ⟨p.2, ?_, hpty, by rw [← hpk, hk]⟩
        rw [runZoneSync_char]
        refine List.mem_append.2 (Or.inl (List.mem_filterMap.2 ⟨p.2, hpm, ?_⟩))
        refine transform_phase1_untouched hids hpm (Or.inr ?_)
        have hpair : (normalizeHost p.2.name, p.2) = p := by
          obtain ⟨p1, p2⟩ := p
          simp only at hpk ⊢
          rw [hpk]
        rw [hpair]
        exact hnone
    · by_cases hA : hasAorAAAA records h
      · right
        obtain ⟨ra, hra, hraty, hran⟩ := hasA_elim hA
        have hty : ra.type ≠ "CNAME" := by
          rcases hraty with hty | hty <;> rw [hty] <;> decide
        refine hasA_intro ?_ hraty hran
        rw [runZoneSync_char]
        exact List.mem_append.2 (Or.inl (List.mem_filterMap.2
          ⟨ra, hra, transform_phase1_untouched hids hra (Or.inl hty)⟩))
      · left
        have hcreate : missingHostAction records hosts target h =
            some (.createRecord h target) := by
          rw [missingHostAction, if_neg (fun hc => hseen (contains_iff.1 hc)),
            if_neg (by simpa using hA)]
        refine ⟨⟨"new-" ++ h, "CNAME", h, target, managedCommentMarker⟩, ?_, rfl, hn h hh⟩
        rw [runZoneSync_char]
        refine List.mem_append.2 (Or.inr (List.mem_filterMap.2 ⟨.createRecord h target, ?_, rfl⟩))
        exact List.mem_filterMap.2 ⟨h, hh, hcreate⟩
  rcases hkey with ⟨rc, hrc, hrcty, hrcn⟩ | hA'
  · have hkeymem := cnameByName_key_complete hrc hrcty
    rw [hrcn] at hkeymem
    obtain ⟨p, hp, hpk⟩ := List.mem_map.1 hkeymem
    have hseen' : h ∈ seenHosts (runZoneSync hosts target records) hosts :=
      seenHosts_intro hp hpk hh
    rw [missingHostAction, if_pos (contains_iff.2 hseen')]
  · by_cases hseen' : (seenHosts (runZoneSync hosts target records) hosts).contains h
    · rw [missingHostAction, if_pos hseen']
    · rw [missingHostAction, if_neg hseen', if_pos hA']

/-! ## Claim theorems -/

/-- C1.  Idempotence of DNS reconciliation: in a zone whose records have
distinct ids and at most one CNAME per normalized name, a managed CNAME whose
content equals the tunnel target under normalization is never updated, and a
second `syncZoneRecords` run on the record set produced by the first issues
zero mutating calls (no create, update or delete). -/
theorem dns_reconciliation_idempotent (hosts : List String) (target : String)
    (records : List dnsRecord)
    (hn : ∀ h ∈ hosts, normalizeHost h = h)
    (hids : recordIdsNodup records) (hcn : cnameNamesNodup records) :
    (∀ r ∈ records, r.type = "CNAME" → isManagedComment r.comment = true →
        equalDNSHost r.content target = true →
        ∀ nm t, dnsAction.updateRecord r.id nm t ∉ syncZoneActions hosts target records)
    ∧ syncZoneActions hosts target (runZoneSync hosts target records) = [] := by
  constructor
  · intro r hr hty hM hE nm t hmem
    rw [syncZoneActions_eq] at hmem
    rcases List.mem_append.1 hmem with hmem | hmem
    · obtain ⟨p, hp, he⟩ := List.mem_filterMap.1 hmem
      rcases existingCnameAction_cases hosts target p with
        ⟨_, _, he'⟩ | ⟨_, _, hE', he'⟩ | ⟨_, he'⟩
      · rw [he'] at he; cases he
      · rw [he'] at he
        have hact := Option.some.inj he
        have hid : p.2.id = r.id := by injection hact
        have hpr : p.2 = r := record_id_inj hids (mem_cnameByName_elim hp).1 hr hid
        rw [hpr] at hE'
        rw [hE] at hE'
        cases hE'
      · rw [he'] at he; cases he
    · obtain ⟨h', _, hma⟩ := List.mem_filterMap.1 hmem
      obtain ⟨hash, _, _⟩ := missingHostAction_elim hma
      cases hash
  · rw [syncZoneActions_eq]
    rw [List.append_eq_nil]
    constructor
    · refine List.filterMap_eq_nil_iff.2 ?_
      intro p hp
      obtain ⟨hpm, hpty, hpk⟩ := mem_cnameByName_elim hp
      by_cases hM : isManagedComment p.2.comment
      · obtain ⟨hS, hE⟩ := runZoneSync_inv hosts target hn hids hcn p.2 hpm hpty hM
        refine eca_none_ok ?_ hE
        rw [hpk]
        exact hS
      · exact eca_none_unmanaged (by simpa using hM)
    · refine List.filterMap_eq_nil_iff.2 ?_
      intro h hh
      exact runZoneSync_covered hosts target hn hids hcn h hh

/-- Witness for C1 at a concrete zone: one managed CNAME whose content equals
the target up to case and trailing dot. -/
theorem dns_reconciliation_idempotent_witness :
    (∀ h ∈ ["a.example.com"], normalizeHost h = h) ∧
    recordIdsNodup [⟨"r1", "CNAME", "A.example.com.", "T.CfArgoTunnel.Com.",
      "managed by tunnel-manager"⟩] ∧
    cnameNamesNodup [⟨"r1", "CNAME", "A.example.com.", "T.CfArgoTunnel.Com.",
      "managed by tunnel-manager"⟩] ∧
    ((∀ r ∈ [(⟨"r1", "CNAME", "A.example.com.", "T.CfArgoTunnel.Com.",
          "managed by tunnel-manager"⟩ : dnsRecord)], r.type = "CNAME" →
        isManagedComment r.comment = true →
        equalDNSHost r.content "t.cfargotunnel.com" = true →
        ∀ nm t, dnsAction.updateRecord r.id nm t ∉
          syncZoneActions ["a.example.com"] "t.cfargotunnel.com"
            [⟨"r1", "CNAME", "A.example.com.", "T.CfArgoTunnel.Com.",
              "managed by tunnel-manager"⟩])
      ∧ syncZoneActions ["a.example.com"] "t.cfargotunnel.com"
          (runZoneSync ["a.example.com"] "t.cfargotunnel.com"
            [⟨"r1", "CNAME", "A.example.com.", "T.CfArgoTunnel.Com.",
              "managed by tunnel-manager"⟩]) = []) :=
  ⟨by decide, by decide, by decide,
    dns_reconciliation_idempotent _ _ _ (by decide) (by decide) (by decide)⟩

/-- C2.  Orphan cleanup: an existing CNAME whose comment contains the managed
marker and whose normalized name is not among the desired hostnames gets a
delete call issued for it. -/
theorem dns_orphan_cleanup (hosts : List String) (target : String)
    (records : List dnsRecord) (r : dnsRecord) (hcn : cnameNamesNodup records)
    (hr : r ∈ records) (hty : r.type = "CNAME")
    (hM : isManagedComment r.comment = true)
    (hout : hosts.contains (normalizeHost r.name) = false) :
    dnsAction.deleteRecord r.id (normalizeHost r.name) ∈
      syncZoneActions hosts target records := by
  have he : existingCnameAction hosts target (normalizeHost r.name, r) =
      some (.deleteRecord r.id (normalizeHost r.name)) := by
    rcases existingCnameAction_cases hosts target (normalizeHost r.name, r) with
      ⟨_, _, h⟩ | ⟨h1, _, _, _⟩ | ⟨h1, _⟩
    · exact h
    · rw [hout] at h1; cases h1
    · rcases h1 with h1 | h1
      · rw [hM] at h1; cases h1
      · rw [hout] at h1; exact absurd h1.1 (by simp)
  rw [syncZoneActions_eq]
  exact List.mem_append.2 (Or.inl (List.mem_filterMap.2
    ⟨_, cnameByName_entry_of_mem hcn hr hty, he⟩))

/-- Witness for C2: a managed CNAME for a hostname absent from the desired
state is deleted. -/
theorem dns_orphan_cleanup_witness :
    cnameNamesNodup [⟨"r9", "CNAME", "z.example.com", "t.cfargotunnel.com",
      "managed by tunnel-manager"⟩] ∧
    dnsAction.deleteRecord "r9" "z.example.com" ∈
      syncZoneActions ["a.example.com"] "t.cfargotunnel.com"
        [⟨"r9", "CNAME", "z.example.com", "t.cfargotunnel.com",
          "managed by tunnel-manager"⟩] :=
  ⟨by decide,
    dns_orphan_cleanup ["a.example.com"] "t.cfargotunnel.com" _ _
      (by decide) (List.mem_singleton.2 rfl) (by decide) (by decide) (by decide)⟩

/-- C3.  Ownership respect: an existing CNAME whose comment lacks the managed
marker is never updated or deleted, whether or not its hostname is desired,
and it survives the whole zone reconciliation unmodified. -/
theorem dns_ownership_respect (hosts : List String) (target : String)
    (records : List dnsRecord) (r : dnsRecord) (hids : recordIdsNodup records)
    (hr : r ∈ records) (hty : r.type = "CNAME")
    (hM : isManagedComment r.comment = false) :
    (∀ nm, dnsAction.deleteRecord r.id nm ∉ syncZoneActions hosts target records) ∧
    (∀ nm t, dnsAction.updateRecord r.id nm t ∉ syncZoneActions hosts target records) ∧
    r ∈ runZoneSync hosts target records := by
  have hnot : ∀ a ∈ syncZoneActions hosts target records, actionId a = some r.id → False := by
    intro a ha hact
    rw [syncZoneActions_eq] at ha
    rcases List.mem_append.1 ha with ha | ha
    · obtain ⟨p, hp, he⟩ := List.mem_filterMap.1 ha
      have hid : p.2.id = r.id :=
        Option.some.inj ((existingCnameAction_id he).symm.trans hact)
      have hpr : p.2 = r := record_id_inj hids (mem_cnameByName_elim hp).1 hr hid
      rcases existingCnameAction_cases hosts target p with
        ⟨_, h2, _⟩ | ⟨_, h2, _, _⟩ | ⟨_, he'⟩
      · rw [hpr, hM] at h2; cases h2
      · rw [hpr, hM] at h2; cases h2
      · rw [he'] at he; cases he
    · obtain ⟨h', _, hma⟩ := List.mem_filterMap.1 ha
      rw [(missingHostAction_elim hma).1] at hact
      cases hact
  refine ⟨?_, ?_, ?_⟩
  · intro nm hmem
    exact hnot _ hmem rfl
  · intro nm t hmem
    exact hnot _ hmem rfl
  · rw [runZoneSync_char]
    refine List.mem_append.2 (Or.inl (List.mem_filterMap.2 ⟨r, hr, ?_⟩))
    exact transform_phase1_untouched hids hr
      (Or.inr (@eca_none_unmanaged hosts target (normalizeHost r.name, r) hM))

/-- Witness for C3: an unmanaged CNAME for a desired hostname stays put. -/
theorem dns_ownership_respect_witness :
    recordIdsNodup [⟨"r5", "CNAME", "y.example.com", "somewhere.else", "hands off"⟩] ∧
    ((∀ nm, dnsAction.deleteRecord "r5" nm ∉
        syncZoneActions ["y.example.com"] "t.cfargotunnel.com"
          [⟨"r5", "CNAME", "y.example.com", "somewhere.else", "hands off"⟩]) ∧
     (∀ nm t, dnsAction.updateRecord "r5" nm t ∉
        syncZoneActions ["y.example.com"] "t.cfargotunnel.com"
          [⟨"r5", "CNAME", "y.example.com", "somewhere.else", "hands off"⟩]) ∧
     (⟨"r5", "CNAME", "y.example.com", "somewhere.else", "hands off"⟩ : dnsRecord) ∈
        runZoneSync ["y.example.com"] "t.cfargotunnel.com"
          [⟨"r5", "CNAME", "y.example.com", "somewhere.else", "hands off"⟩]) :=
  ⟨by decide,
    dns_ownership_respect ["y.example.com"] "t.cfargotunnel.com" _ _
      (by decide) (List.mem_singleton.2 rfl) (by decide) (by decide)⟩

/-- C4.  Conflict avoidance: a desired hostname with no existing CNAME in the
zone but an existing A/AAAA record gets no CNAME created and no mutating call
for any record bearing that name; the records of that name survive unchanged. -/
theorem dns_conflict_avoidance (hosts : List String) (target : String)
    (records : List dnsRecord) (h : String) (hids : recordIdsNodup records)
    (hh : h ∈ hosts)
    (hnoc : ∀ r ∈ records, r.type = "CNAME" → normalizeHost r.name ≠ h)
    (ha : hasAorAAAA records h = true) :
    (∀ t, dnsAction.createRecord h t ∉ syncZoneActions hosts target records) ∧
    (∀ r ∈ records, normalizeHost r.name = h →
      (∀ nm, dnsAction.deleteRecord r.id nm ∉ syncZoneActions hosts target records) ∧
      (∀ nm t, dnsAction.updateRecord r.id nm t ∉ syncZoneActions hosts target records) ∧
      r ∈ runZoneSync hosts target records) := by
  constructor
  · intro t hmem
    rw [syncZoneActions_eq] at hmem
    rcases List.mem_append.1 hmem with hmem | hmem
    · obtain ⟨p, hp, he⟩ := List.mem_filterMap.1 hmem
      rcases existingCnameAction_cases hosts target p with
        ⟨_, _, he'⟩ | ⟨_, _, _, he'⟩ | ⟨_, he'⟩ <;> rw [he'] at he <;> cases he
    · obtain ⟨h', _, hma⟩ := List.mem_filterMap.1 hmem
      obtain ⟨hash, _, hnoA⟩ := missingHostAction_elim hma
      have hh' : h' = h := by cases hash; rfl
      rw [hh'] at hnoA
      rw [ha] at hnoA
      cases hnoA
  · intro r hr hname
    have htyr : r.type ≠ "CNAME" := fun hc => hnoc r hr hc hname
    have hnot : ∀ a ∈ syncZoneActions hosts target records,
        actionId a = some r.id → False := by
      intro a hmem hact
      rw [syncZoneActions_eq] at hmem
      rcases List.mem_append.1 hmem with hmem | hmem
      · obtain ⟨p, hp, he⟩ := List.mem_filterMap.1 hmem
        have hid : p.2.id = r.id :=
          Option.some.inj ((existingCnameAction_id he).symm.trans hact)
        have hpr : p.2 = r := record_id_inj hids (mem_cnameByName_elim hp).1 hr hid
        have := (mem_cnameByName_elim hp).2.1
        rw [hpr] at this
        exact htyr this
      · obtain ⟨h', _, hma⟩ := List.mem_filterMap.1 hmem
        rw [(missingHostAction_elim hma).1] at hact
        cases hact
    refine ⟨fun nm hmem => hnot _ hmem rfl, fun nm t hmem => hnot _ hmem rfl, ?_⟩
    rw [runZoneSync_char]
    exact List.mem_append.2 (Or.inl (List.mem_filterMap.2
      ⟨r, hr, transform_phase1_untouched hids hr (Or.inl htyr)⟩))

theorem bmz_fold (hostname : String) :
    ∀ (zones : List zoneSummary) (best : String),
      (zones.foldl (bmzStep hostname) best = best ∨
        ∃ z ∈ zones, zones.foldl (bmzStep hostname) best = normalizeHost z.name ∧
          zoneNameMatches hostname (normalizeHost z.name) = true) ∧
      best.data.length ≤ (zones.foldl (bmzStep hostname) best).data.length ∧
      (∀ z ∈ zones, zoneNameMatches hostname (normalizeHost z.name) = true →
        (normalizeHost z.name).data.length ≤
          (zones.foldl (bmzStep hostname) best).data.length) := by
  intro zones
  induction zones with
  | nil =>
      intro best
      exact ⟨Or.inl rfl, le_refl _, fun z hz => absurd hz (List.not_mem_nil z)⟩
  | cons z0 t ih =>
      intro best
      rw [List.foldl_cons]
      obtain ⟨ihd, ihle, ihmax⟩ := ih (bmzStep hostname best z0)
      refine ⟨?_, ?_, ?_⟩
      · rcases ihd with ihd | ⟨z, hz, hfold, hzm⟩
        · by_cases hc : (zoneNameMatches hostname (normalizeHost z0.name) &&
              decide ((normalizeHost z0.name).data.length > best.data.length)) = true
          · have hb1 : bmzStep hostname best z0 = normalizeHost z0.name := by
              rw [bmzStep, if_pos hc]
            have hcc := hc
            simp only [Bool.and_eq_true, decide_eq_true_eq] at hcc
            exact Or.inr ⟨z0, List.mem_cons_self _ _, ihd.trans hb1, hcc.1⟩
          · have hb1 : bmzStep hostname best z0 = best := by
              rw [bmzStep, if_neg hc]
            exact Or.inl (ihd.trans hb1)
        · exact Or.inr ⟨z, List.mem_cons_of_mem _ hz, hfold, hzm⟩
      · refine le_trans ?_ ihle
        by_cases hc : (zoneNameMatches hostname (normalizeHost z0.name) &&
            decide ((normalizeHost z0.name).data.length > best.data.length)) = true
        · have hb1 : bmzStep hostname best z0 = normalizeHost z0.name := by
            rw [bmzStep, if_pos hc]
          have hcc := hc
          simp only [Bool.and_eq_true, decide_eq_true_eq] at hcc
          rw [hb1]
          exact le_of_lt hcc.2
        · have hb1 : bmzStep hostname best z0 = best := by
            rw [bmzStep, if_neg hc]
          rw [hb1]
      · intro z hz hm
        rcases List.mem_cons.1 hz with hz0 | hzt
        · subst hz0
          by_cases hc : (zoneNameMatches hostname (normalizeHost z.name) &&
              decide ((normalizeHost z.name).data.length > best.data.length)) = true
          · have hb1 : bmzStep hostname best z = normalizeHost z.name := by
              rw [bmzStep, if_pos hc]
            calc (normalizeHost z.name).data.length
                = (bmzStep hostname best z).data.length := by rw [hb1]
              _ ≤ _ := ihle
          · have hnlt : ¬((normalizeHost z.name).data.length > best.data.length) := by
              intro hlt
              exact hc (by rw [hm, Bool.true_and]; exact decide_eq_true hlt)
            have hb1 : bmzStep hostname best z = best := by
              rw [bmzStep, if_neg hc]
            calc (normalizeHost z.name).data.length
                ≤ best.data.length := Nat.le_of_not_lt hnlt
              _ = (bmzStep hostname best z).data.length := by rw [hb1]
              _ ≤ _ := ihle
        · exact ihmax z hzt hm

/-- C5.  Longest-suffix zone match: `bestMatchingZone` returns the normalized
name of a matching zone of maximal length (matching = normalized zone name
equal to the hostname or a dot-separated suffix of it), and returns `""` —
so `SyncDNS` skips the hostname — when no zone matches. -/
theorem bestMatchingZone_longest_suffix (hostname : String) (zones : List zoneSummary) :
    ((∀ z ∈ zones, zoneNameMatches hostname (normalizeHost z.name) = false) →
      bestMatchingZone hostname zones = "") ∧
    (∀ z ∈ zones, zoneNameMatches hostname (normalizeHost z.name) = true →
      (normalizeHost z.name).data.length ≤
        (bestMatchingZone hostname zones).data.length) ∧
    (bestMatchingZone hostname zones ≠ "" →
      ∃ z ∈ zones, bestMatchingZone hostname zones = normalizeHost z.name ∧
        zoneNameMatches hostname (normalizeHost z.name) = true) := by
  obtain ⟨hd, _, hmax⟩ := bmz_fold hostname zones ""
  refine ⟨?_, ?_, ?_⟩
  · intro hnone
    rcases hd with hd | ⟨z, hz, _, hzm⟩
    · exact hd
    · rw [hnone z hz] at hzm
      cases hzm
  · intro z hz hm
    exact hmax z hz hm
  · intro hne
    rcases hd with hd | ⟨z, hz, hfold, hzm⟩
    · exact absurd hd hne
    · exact ⟨z, hz, hfold, hzm⟩

/-- Witness for C5 at the spec's example: zones `example.com` and
`sub.example.com`, hostname `api.sub.example.com`. -/
theorem bestMatchingZone_longest_suffix_witness :
    zoneNameMatches "api.sub.example.com" (normalizeHost "sub.example.com") = true ∧
    (normalizeHost "sub.example.com").data.length ≤
      (bestMatchingZone "api.sub.example.com"
        [⟨"z1", "example.com"⟩, ⟨"z2", "sub.example.com"⟩]).data.length ∧
    bestMatchingZone "api.sub.example.com"
      [⟨"z1", "example.com"⟩, ⟨"z2", "sub.example.com"⟩] = "sub.example.com" :=
  ⟨by decide,
    (bestMatchingZone_longest_suffix "api.sub.example.com"
        [⟨"z1", "example.com"⟩, ⟨"z2", "sub.example.com"⟩]).2.1
      ⟨"z2", "sub.example.com"⟩ (by decide) (by decide),
    by decide⟩

/-- Witness for C4: a desired hostname shadowed by an A record is skipped. -/
theorem dns_conflict_avoidance_witness :
    recordIdsNodup [⟨"r7", "A", "x.example.com", "192.0.2.1", ""⟩] ∧
    "x.example.com" ∈ ["x.example.com"] ∧
    (∀ r ∈ [(⟨"r7", "A", "x.example.com", "192.0.2.1", ""⟩ : dnsRecord)],
      r.type = "CNAME" → normalizeHost r.name ≠ "x.example.com") ∧
    hasAorAAAA [⟨"r7", "A", "x.example.com", "192.0.2.1", ""⟩] "x.example.com" = true ∧
    (∀ t, dnsAction.createRecord "x.example.com" t ∉
      syncZoneActions ["x.example.com"] "t.cfargotunnel.com"
        [⟨"r7", "A", "x.example.com", "192.0.2.1", ""⟩]) :=
  ⟨by decide, by decide, by decide, by decide,
    (dns_conflict_avoidance ["x.example.com"] "t.cfargotunnel.com" _ _
      (by decide) (by decide) (by decide) (by decide)).1⟩

/-! ## Claim C7: `SyncState.Append` -/

theorem assocLookup_append_single {α : Type} {l : List (String × α)} {k : String}
    (v : α) (h : assocLookup l k = none) : assocLookup (l ++ [(k, v)]) k = some v := by
  induction l with
  | nil => simp [assocLookup]
  | cons p rest ih =>
      obtain ⟨k0, v0⟩ := p
      by_cases hk : k0 = k
      · rw [assocLookup, if_pos (beq_iff_eq.2 hk)] at h
        cases h
      · rw [assocLookup, if_neg (by simpa using hk)] at h
        rw [List.cons_append, assocLookup, if_neg (by simpa using hk)]
        exact ih h

theorem assocLookup_none_not_mem {α : Type} {l : List (String × α)} {k : String}
    (h : assocLookup l k = none) : k ∉ l.map Prod.fst := by
  induction l with
  | nil => simp
  | cons p rest ih =>
      obtain ⟨k0, v0⟩ := p
      by_cases hk : k0 = k
      · rw [assocLookup, if_pos (beq_iff_eq.2 hk)] at h
        cases h
      · rw [assocLookup, if_neg (by simpa using hk)] at h
        simp only [List.map_cons, List.mem_cons]
        rintro (hc | hc)
        · exact hk hc.symm
        · exact ih h hc

/-- Counterexample to C7 as stated: the duplicate check of `SyncState.Append`
compares exact hostname strings, not normalized ones — a second `Append` whose
hostname differs only in case succeeds even though the normalized hostname is
already present. -/
theorem syncState_append_not_normalized :
    SyncState.Append NewSyncState "a.example.com" "Y" =
      Except.ok ⟨[("a.example.com", "Y")]⟩ ∧
    normalizeHost "A.example.com" = normalizeHost "a.example.com" ∧
    SyncState.Append ⟨[("a.example.com", "Y")]⟩ "A.example.com" "X" =
      Except.ok ⟨[("a.example.com", "Y"), ("A.example.com", "X")]⟩ :=
  ⟨rfl, by decide, rfl⟩

/-- C7 (amended).  `SyncState.Append` fails exactly on an exact-string
duplicate: after a successful `Append hn Y`, a second `Append hn X` for the
same hostname string fails, the mapping stays at `Y`, and key uniqueness is
preserved, so no hostname string is ever mapped to two targets. -/
theorem syncState_append_exact_duplicate (s : SyncState) (hn X Y : String)
    (h0 : assocLookup s.HostToService hn = none) :
    ∃ s1, s.Append hn Y = .ok s1 ∧
      (∃ msg, s1.Append hn X = .error msg) ∧
      assocLookup s1.HostToService hn = some Y ∧
      (s.keysNodup → s1.keysNodup) := by
  refine ⟨⟨s.HostToService ++ [(hn, Y)]⟩, ?_, ?_, ?_, ?_⟩
  · rw [SyncState.Append, h0]
  · refine ⟨"hostname " ++ hn ++ " is already mapped to service " ++ Y, ?_⟩
    have hl : assocLookup (⟨s.HostToService ++ [(hn, Y)]⟩ : SyncState).HostToService hn =
        some Y := assocLookup_append_single Y h0
    simp only [SyncState.Append, hl]
  · exact assocLookup_append_single Y h0
  · intro hkn
    show ((s.HostToService ++ [(hn, Y)]).map Prod.fst).Nodup
    rw [List.map_append]
    refine List.nodup_append.2 ⟨hkn, by simp, ?_⟩
    intro k hk hk'
    simp only [List.map_cons, List.map_nil, List.mem_singleton] at hk'
    rw [hk'] at hk
    exact assocLookup_none_not_mem h0 hk

/-- Witness for C7's amended statement at a concrete state. -/
theorem syncState_append_exact_duplicate_witness :
    assocLookup NewSyncState.HostToService "a.example.com" = none ∧
    (∃ s1, NewSyncState.Append "a.example.com" "Y" = .ok s1 ∧
      (∃ msg, s1.Append "a.example.com" "X" = .error msg) ∧
      assocLookup s1.HostToService "a.example.com" = some "Y" ∧
      (NewSyncState.keysNodup → s1.keysNodup)) :=
  ⟨rfl, syncState_append_exact_duplicate NewSyncState "a.example.com" "X" "Y" rfl⟩

/-! ## Claim C8: the published tunnel ingress rules -/

theorem listLexLe_total : ∀ l1 l2 : List Char, listLexLe l1 l2 = true ∨ listLexLe l2 l1 = true := by
  intro l1
  induction l1 with
  | nil => intro l2; exact Or.inl rfl
  | cons a as ih =>
      intro l2
      cases l2 with
      | nil => exact Or.inr rfl
      | cons b bs =>
          by_cases hab : a.toNat < b.toNat
          · exact Or.inl (by rw [listLexLe, if_pos hab])
          · by_cases hba : b.toNat < a.toNat
            · exact Or.inr (by rw [listLexLe, if_pos hba])
            · rcases ih bs with h | h
              · exact Or.inl (by rw [listLexLe, if_neg hab, if_neg hba]; exact h)
              · exact Or.inr (by rw [listLexLe, if_neg hba, if_neg hab]; exact h)

theorem listLexLe_trans :
    ∀ l1 l2 l3 : List Char, listLexLe l1 l2 = true → listLexLe l2 l3 = true →
      listLexLe l1 l3 = true := by
  intro l1
  induction l1 with
  | nil => intro l2 l3 _ _; rfl
  | cons a as ih =>
      intro l2 l3 h12 h23
      cases l2 with
      | nil => rw [listLexLe] at h12; cases h12
      | cons b bs =>
          cases l3 with
          | nil => rw [listLexLe] at h23; cases h23
          | cons c cs =>
              rw [listLexLe] at h12 h23 ⊢
              by_cases hab : a.toNat < b.toNat
              · by_cases hbc : b.toNat < c.toNat
                · rw [if_pos (Nat.lt_trans hab hbc)]
                · by_cases hcb : c.toNat < b.toNat
                  · rw [if_neg hbc, if_pos hcb] at h23
                    cases h23
                  · have hbceq : b.toNat = c.toNat := Nat.le_antisymm
                      (Nat.le_of_not_lt hcb) (Nat.le_of_not_lt hbc)
                    rw [if_pos (hbceq ▸ hab)]
              · by_cases hba : b.toNat < a.toNat
                · rw [if_pos hba, if_neg hab] at h12
                  cases h12
                · have habeq : a.toNat = b.toNat := Nat.le_antisymm
                    (Nat.le_of_not_lt hba) (Nat.le_of_not_lt hab)
                  rw [if_neg hab, if_neg hba] at h12
                  by_cases hbc : b.toNat < c.toNat
                  · rw [if_pos (habeq ▸ hbc)]
                  · by_cases hcb : c.toNat < b.toNat
                    · rw [if_neg hbc, if_pos hcb] at h23
                      cases h23
                    · rw [if_neg hbc, if_neg hcb] at h23
                      rw [if_neg (habeq ▸ hbc), if_neg (habeq ▸ hcb)]
                      exact ih bs cs h12 h23

theorem ruleLe_total (a b : TunnelIngressRule) : ruleLe a b = true ∨ ruleLe b a = true :=
  listLexLe_total a.Hostname.data b.Hostname.data

theorem ruleLe_trans {a b c : TunnelIngressRule} (h1 : ruleLe a b = true)
    (h2 : ruleLe b c = true) : ruleLe a c = true :=
  listLexLe_trans a.Hostname.data b.Hostname.data c.Hostname.data h1 h2

theorem mem_insertSorted {a x : TunnelIngressRule} :
    ∀ l : List TunnelIngressRule, x ∈ insertSorted a l ↔ x = a ∨ x ∈ l := by
  intro l
  induction l with
  | nil => simp [insertSorted]
  | cons b t ih =>
      by_cases hab : ruleLe a b
      · rw [insertSorted, if_pos hab]
        simp only [List.mem_cons]
      · rw [insertSorted, if_neg hab]
        simp only [List.mem_cons, ih]
        tauto

theorem pairwise_insertSorted (a : TunnelIngressRule) :
    ∀ l : List TunnelIngressRule, List.Pairwise (fun u v => ruleLe u v = true) l →
      List.Pairwise (fun u v => ruleLe u v = true) (insertSorted a l) := by
  intro l
  induction l with
  | nil => intro _; simp [insertSorted]
  | cons b t ih =>
      intro hp
      obtain ⟨hb, ht⟩ := List.pairwise_cons.1 hp
      by_cases hab : ruleLe a b
      · rw [insertSorted, if_pos hab]
        refine List.pairwise_cons.2 ⟨?_, hp⟩
        intro x hx
        rcases List.mem_cons.1 hx with hx | hx
        · rw [hx]; exact hab
        · exact ruleLe_trans hab (hb x hx)
      · rw [insertSorted, if_neg hab]
        refine List.pairwise_cons.2 ⟨?_, ih ht⟩
        intro x hx
        rcases (mem_insertSorted t).1 hx with hx | hx
        · rw [hx]
          rcases ruleLe_total a b with h | h
          · exact absurd h hab
          · exact h
        · exact hb x hx

theorem pairwise_sortRules (l : List TunnelIngressRule) :
    List.Pairwise (fun u v => ruleLe u v = true) (sortRules l) := by
  induction l with
  | nil => simp [sortRules]
  | cons a t ih => exact pairwise_insertSorted a _ ih

theorem mem_sortRules {x : TunnelIngressRule} :
    ∀ l : List TunnelIngressRule, x ∈ sortRules l ↔ x ∈ l := by
  intro l
  induction l with
  | nil => simp [sortRules]
  | cons a t ih =>
      show x ∈ insertSorted a (sortRules t) ↔ _
      rw [mem_insertSorted, ih]
      simp only [List.mem_cons]

/-- C8.  Catch-all ingress invariant: as long as the desired state does not
itself map the empty hostname to `http_status:404` (hostnames are non-empty in
practice), the published rule list is the sorted host rules followed by the
catch-all: the catch-all is present exactly once, always last, present even
for the empty state (one-element list), and the non-terminal rules are sorted
by hostname ascending. -/
theorem tunnel_catch_all_invariant (state : SyncState)
    (hne : ∀ p ∈ state.HostToService, ¬(p.1 = "" ∧ p.2 = "http_status:404")) :
    ∃ front, tunnelIngressRules state = front ++ [catchAllRule] ∧
      (∀ r ∈ front, ¬(r.Hostname = "" ∧ r.Service = "http_status:404")) ∧
      List.Pairwise (fun u v => ruleLe u v = true) front ∧
      (tunnelIngressRules state).countP
        (fun r => r.Hostname == "" && r.Service == "http_status:404") = 1 ∧
      (state.HostToService = [] → tunnelIngressRules state = [catchAllRule]) := by
  refine ⟨_, rfl, ?_, ?_, ?_, ?_⟩
  · intro r hr
    obtain ⟨p, hp, hpr⟩ := List.mem_map.1 ((mem_sortRules _).1 hr)
    intro ⟨h1, h2⟩
    rw [← hpr] at h1 h2
    exact hne p hp ⟨h1, h2⟩
  · exact pairwise_sortRules _
  · rw [tunnelIngressRules, List.countP_append]
    have hfront : (sortRules (state.HostToService.map fun p => ⟨p.1, p.2⟩)).countP
        (fun r => r.Hostname == "" && r.Service == "http_status:404") = 0 := by
      refine List.countP_eq_zero.2 ?_
      intro r hr hc
      obtain ⟨p, hp, hpr⟩ := List.mem_map.1 ((mem_sortRules _).1 hr)
      simp only [Bool.and_eq_true, beq_iff_eq] at hc
      rw [← hpr] at hc
      exact hne p hp hc
    rw [hfront]
    decide
  · intro h
    rw [tunnelIngressRules, h]
    rfl

/-- Witness for C8 at a concrete two-host state. -/
theorem tunnel_catch_all_invariant_witness :
    (∀ p ∈ (⟨[("b.x", "s2"), ("a.x", "s1")]⟩ : SyncState).HostToService,
      ¬(p.1 = "" ∧ p.2 = "http_status:404")) ∧
    (∃ front, tunnelIngressRules ⟨[("b.x", "s2"), ("a.x", "s1")]⟩ = front ++ [catchAllRule] ∧
      (∀ r ∈ front, ¬(r.Hostname = "" ∧ r.Service = "http_status:404")) ∧
      List.Pairwise (fun u v => ruleLe u v = true) front ∧
      (tunnelIngressRules ⟨[("b.x", "s2"), ("a.x", "s1")]⟩).countP
        (fun r => r.Hostname == "" && r.Service == "http_status:404") = 1 ∧
      ((⟨[("b.x", "s2"), ("a.x", "s1")]⟩ : SyncState).HostToService = [] →
        tunnelIngressRules ⟨[("b.x", "s2"), ("a.x", "s1")]⟩ = [catchAllRule])) :=
  ⟨by decide, tunnel_catch_all_invariant ⟨[("b.x", "s2"), ("a.x", "s1")]⟩ (by decide)⟩

/-! ## Claim C6: `chooseServicePort` -/

/-- C6.  The `sync`-package `chooseServicePort` (used by `SyncKube`) does not
fall back on an invalid port annot value: with annot `"invalid"` and ports
`[8080, 9090]` it returns 0, so the caller skips the service, while the
`main.go` variant implements the documented fallback and returns 8080. -/
theorem chooseServicePort_invalid_no_fallback :
    chooseServicePort (some "invalid") [8080, 9090] = 0 ∧
    chooseServicePortMain (some "invalid") [8080, 9090] = 8080 ∧
    chooseServicePort none [8080, 9090] = 8080 ∧
    chooseServicePort (some "443") [8080, 9090] = 443 ∧
    chooseServicePort none [] = 0 := by decide

/-! ## Lemmas: the per-zone loop of `SyncDNS` -/

theorem worldRecords_update_self (w : World) (zid : String) (recs : List dnsRecord) :
    worldRecords (worldUpdate w zid recs) zid = recs := by
  rw [worldRecords, worldUpdate, assocLookup_upsert_self]
  rfl

theorem worldRecords_update_ne (w : World) {zid zid' : String} (recs : List dnsRecord)
    (h : zid' ≠ zid) :
    worldRecords (worldUpdate w zid recs) zid' = worldRecords w zid' := by
  rw [worldRecords, worldUpdate, assocLookup_upsert_ne _ _ _ _ h, worldRecords]

theorem runZoneCalls_none {fails : String → dnsAction → Bool} {zid : String} :
    ∀ (acts : List dnsAction) (recs recs' : List dnsRecord) (calls : List dnsAction),
      runZoneCalls fails zid recs acts = (recs', calls, none) →
      recs' = acts.foldl applyAction recs ∧ calls = acts := by
  intro acts
  induction acts with
  | nil =>
      intro recs recs' calls h
      rw [runZoneCalls] at h
      injection h with h1 h2
      injection h2 with h2a h2b
      exact ⟨h1.symm, h2a.symm⟩
  | cons a rest ih =>
      intro recs recs' calls h
      rw [runZoneCalls] at h
      by_cases hf : fails zid a
      · rw [if_pos hf] at h
        injection h with h1 h2
        injection h2 with h2a h2b
        cases h2b
      · rw [if_neg hf] at h
        rcases hr : runZoneCalls fails zid (applyAction recs a) rest with ⟨r1, c1, o1⟩
        rw [hr] at h
        simp only at h
        injection h with h1 h2
        injection h2 with h2a h2b
        rw [h2b] at hr
        obtain ⟨ih1, ih2⟩ := ih (applyAction recs a) r1 c1 hr
        refine ⟨?_, ?_⟩
        · rw [← h1, ih1, List.foldl_cons]
        · rw [← h2a, ih2]

theorem runZoneCalls_fail_mem {fails : String → dnsAction → Bool} {zid : String}
    {a : dnsAction} :
    ∀ (acts : List dnsAction) (recs recs' : List dnsRecord) (calls : List dnsAction),
      runZoneCalls fails zid recs acts = (recs', calls, some a) → a ∈ acts := by
  intro acts
  induction acts with
  | nil =>
      intro recs recs' calls h
      rw [runZoneCalls] at h
      injection h with h1 h2
      injection h2 with h2a h2b
      cases h2b
  | cons b rest ih =>
      intro recs recs' calls h
      rw [runZoneCalls] at h
      by_cases hf : fails zid b
      · rw [if_pos hf] at h
        injection h with h1 h2
        injection h2 with h2a h2b
        rw [← Option.some.inj h2b]
        exact List.mem_cons_self _ _
      · rw [if_neg hf] at h
        rcases hr : runZoneCalls fails zid (applyAction recs b) rest with ⟨r1, c1, o1⟩
        rw [hr] at h
        simp only at h
        injection h with h1 h2
        injection h2 with h2a h2b
        rw [h2b] at hr
        exact List.mem_cons_of_mem _ (ih (applyAction recs b) r1 c1 hr)

theorem processZones_nil (fails : String → dnsAction → Bool) (target : String)
    (idBy : List (String × String)) (w : World) :
    processZones fails target idBy w [] = (w, [], none) := rfl

theorem processZones_cons_skip {fails : String → dnsAction → Bool} {target : String}
    {idBy : List (String × String)} {w : World} {zn : String} {hs : List String}
    {rest : List (String × List String)}
    (h : (((assocLookup idBy zn).getD "" == "") = true)) :
    processZones fails target idBy w ((zn, hs) :: rest) =
      processZones fails target idBy w rest := by
  simp only [processZones]
  rw [if_pos h]

theorem processZones_cons_fail {fails : String → dnsAction → Bool} {target : String}
    {idBy : List (String × String)} {w : World} {zn : String} {hs : List String}
    {rest : List (String × List String)} {recs' : List dnsRecord}
    {calls : List dnsAction} {a : dnsAction}
    (h : ¬(((assocLookup idBy zn).getD "" == "") = true))
    (hrun : runZoneCalls fails ((assocLookup idBy zn).getD "")
        (worldRecords w ((assocLookup idBy zn).getD ""))
        (syncZoneActions hs target (worldRecords w ((assocLookup idBy zn).getD ""))) =
      (recs', calls, some a)) :
    processZones fails target idBy w ((zn, hs) :: rest) =
      (worldUpdate w ((assocLookup idBy zn).getD "") recs',
       apiCall.listRecordsCall ((assocLookup idBy zn).getD "") ::
         calls.map (apiCall.mutateCall ((assocLookup idBy zn).getD "")),
       some ⟨zn, (assocLookup idBy zn).getD "", a⟩) := by
  simp only [processZones]
  rw [if_neg h, hrun]

theorem processZones_cons_ok {fails : String → dnsAction → Bool} {target : String}
    {idBy : List (String × String)} {w : World} {zn : String} {hs : List String}
    {rest : List (String × List String)} {recs' : List dnsRecord}
    {calls : List dnsAction}
    (h : ¬(((assocLookup idBy zn).getD "" == "") = true))
    (hrun : runZoneCalls fails ((assocLookup idBy zn).getD "")
        (worldRecords w ((assocLookup idBy zn).getD ""))
        (syncZoneActions hs target (worldRecords w ((assocLookup idBy zn).getD ""))) =
      (recs', calls, none)) :
    processZones fails target idBy w ((zn, hs) :: rest) =
      ((processZones fails target idBy
          (worldUpdate w ((assocLookup idBy zn).getD "") recs') rest).1,
       apiCall.listRecordsCall ((assocLookup idBy zn).getD "") ::
         calls.map (apiCall.mutateCall ((assocLookup idBy zn).getD "")) ++
           (processZones fails target idBy
             (worldUpdate w ((assocLookup idBy zn).getD "") recs') rest).2.1,
       (processZones fails target idBy
         (worldUpdate w ((assocLookup idBy zn).getD "") recs') rest).2.2) := by
  simp only [processZones]
  rw [if_neg h, hrun]

theorem zonePassIds_cons_skip {idBy : List (String × String)} {zn : String}
    {hs : List String} {rest : List (String × List String)}
    (h : (((assocLookup idBy zn).getD "" == "") = true)) :
    zonePassIds idBy ((zn, hs) :: rest) = zonePassIds idBy rest := by
  rw [zonePassIds, List.filterMap_cons_none]
  · rfl
  · show (if ((assocLookup idBy zn).getD "" == "") = true then none
      else some ((assocLookup idBy zn).getD "")) = none
    rw [if_pos h]

theorem zonePassIds_cons_go {idBy : List (String × String)} {zn : String}
    {hs : List String} {rest : List (String × List String)}
    (h : ¬(((assocLookup idBy zn).getD "" == "") = true)) :
    zonePassIds idBy ((zn, hs) :: rest) =
      (assocLookup idBy zn).getD "" :: zonePassIds idBy rest := by
  rw [zonePassIds, List.filterMap_cons_some]
  · rfl
  · show (if ((assocLookup idBy zn).getD "" == "") = true then none
      else some ((assocLookup idBy zn).getD "")) = some ((assocLookup idBy zn).getD "")
    rw [if_neg h]

theorem mem_zonePassIds {idBy : List (String × String)} {zn : String} {hs : List String}
    {zh : List (String × List String)} (hmem : (zn, hs) ∈ zh)
    (hne : (assocLookup idBy zn).getD "" ≠ "") :
    (assocLookup idBy zn).getD "" ∈ zonePassIds idBy zh := by
  refine List.mem_filterMap.2 ⟨(zn, hs), hmem, ?_⟩
  show (if ((assocLookup idBy zn).getD "" == "") = true then none
    else some ((assocLookup idBy zn).getD "")) = some ((assocLookup idBy zn).getD "")
  rw [if_neg (by simpa using hne)]

/-- Frame property of the per-zone loop: a zone whose id receives no hostname
is never listed or mutated, and its records are unchanged. -/
theorem processZones_frame (fails : String → dnsAction → Bool) (target : String)
    (idBy : List (String × String)) :
    ∀ (zh : List (String × List String)) (w : World) (zid : String),
      zid ∉ zonePassIds idBy zh →
      worldRecords (processZones fails target idBy w zh).1 zid = worldRecords w zid ∧
      ∀ c ∈ (processZones fails target idBy w zh).2.1, callZoneId c ≠ some zid := by
  intro zh
  induction zh with
  | nil =>
      intro w zid _
      rw [processZones_nil]
      exact ⟨rfl, by intro c hc; simp at hc⟩
  | cons p rest ih =>
      obtain ⟨zn, hs⟩ := p
      intro w zid hnm
      by_cases hskip : (((assocLookup idBy zn).getD "" == "") = true)
      · rw [processZones_cons_skip hskip]
        rw [zonePassIds_cons_skip hskip] at hnm
        exact ih w zid hnm
      · rw [zonePassIds_cons_go hskip] at hnm
        have hzne : zid ≠ (assocLookup idBy zn).getD "" :=
          fun hc => hnm (List.mem_cons.2 (Or.inl hc))
        have hrest : zid ∉ zonePassIds idBy rest :=
          fun hc => hnm (List.mem_cons.2 (Or.inr hc))
        rcases hrun : runZoneCalls fails ((assocLookup idBy zn).getD "")
            (worldRecords w ((assocLookup idBy zn).getD ""))
            (syncZoneActions hs target
              (worldRecords w ((assocLookup idBy zn).getD ""))) with ⟨recs', calls, fo⟩
        cases fo with
        | some a =>
            rw [processZones_cons_fail hskip hrun]
            refine ⟨worldRecords_update_ne w recs' hzne, ?_⟩
            intro c hc
            rcases List.mem_cons.1 hc with hc | hc
            · rw [hc]
              intro he
              exact hzne (Option.some.inj he).symm
            · obtain ⟨act, _, hact⟩ := List.mem_map.1 hc
              rw [← hact]
              intro he
              exact hzne (Option.some.inj he).symm
        | none =>
            rw [processZones_cons_ok hskip hrun]
            obtain ⟨ihw, ihc⟩ := ih (worldUpdate w ((assocLookup idBy zn).getD "") recs')
              zid hrest
            refine ⟨?_, ?_⟩
            · rw [ihw, worldRecords_update_ne w recs' hzne]
            · intro c hc
              rcases List.mem_cons.1 hc with hc | hc
              · rw [hc]
                intro he
                exact hzne (Option.some.inj he).symm
              · rcases List.mem_append.1 hc with hc | hc
                · obtain ⟨act, _, hact⟩ := List.mem_map.1 hc
                  rw [← hact]
                  intro he
                  exact hzne (Option.some.inj he).symm
                · exact ihc c hc

theorem SyncDNS_empty {fails : String → dnsAction → Bool} {state : SyncState}
    {zones : List zoneSummary} {tunnelID : String} {w : World}
    (h : state.HostToService.isEmpty = true) :
    SyncDNS fails state zones tunnelID w = (w, [], none) := by
  rw [SyncDNS, if_pos h]

theorem SyncDNS_noZones {fails : String → dnsAction → Bool} {state : SyncState}
    {zones : List zoneSummary} {tunnelID : String} {w : World}
    (h1 : state.HostToService.isEmpty = false) (h2 : zones.isEmpty = true) :
    SyncDNS fails state zones tunnelID w = (w, [apiCall.listZonesCall], none) := by
  simp [SyncDNS, h1, h2]

theorem SyncDNS_go {fails : String → dnsAction → Bool} {state : SyncState}
    {zones : List zoneSummary} {tunnelID : String} {w : World}
    (h1 : state.HostToService.isEmpty = false) (h2 : zones.isEmpty = false) :
    SyncDNS fails state zones tunnelID w =
      ((processZones fails (tunnelID ++ ".cfargotunnel.com") (zoneIDByName zones) w
          (zoneHostsOf state.HostToService zones)).1,
       apiCall.listZonesCall ::
         (processZones fails (tunnelID ++ ".cfargotunnel.com") (zoneIDByName zones) w
           (zoneHostsOf state.HostToService zones)).2.1,
       (processZones fails (tunnelID ++ ".cfargotunnel.com") (zoneIDByName zones) w
         (zoneHostsOf state.HostToService zones)).2.2) := by
  simp [SyncDNS, h1, h2]

/-- C10.  Frame property of `SyncDNS`: with an empty (or nil) desired map it
returns success immediately without issuing any API call, and in every run a
zone whose id is assigned no desired hostname by suffix match is never listed
or mutated and its record set is left entirely unchanged. -/
theorem syncDNS_frame_property (fails : String → dnsAction → Bool) (state : SyncState)
    (zones : List zoneSummary) (tunnelID : String) (w : World) :
    (state.HostToService = [] → SyncDNS fails state zones tunnelID w = (w, [], none)) ∧
    (∀ zid, zid ∉ zonePassIds (zoneIDByName zones)
        (zoneHostsOf state.HostToService zones) →
      worldRecords (SyncDNS fails state zones tunnelID w).1 zid = worldRecords w zid ∧
      ∀ c ∈ (SyncDNS fails state zones tunnelID w).2.1, callZoneId c ≠ some zid) := by
  constructor
  · intro h
    exact SyncDNS_empty (by rw [h]; rfl)
  · intro zid hzid
    cases hempty : state.HostToService.isEmpty with
    | true =>
        rw [SyncDNS_empty hempty]
        exact ⟨rfl, by intro c hc; simp at hc⟩
    | false =>
        cases hzempty : zones.isEmpty with
        | true =>
            rw [SyncDNS_noZones hempty hzempty]
            refine ⟨rfl, ?_⟩
            intro c hc
            rw [List.mem_singleton.1 hc]
            intro hcz
            cases hcz
        | false =>
            rw [SyncDNS_go hempty hzempty]
            obtain ⟨hw, hcalls⟩ := processZones_frame fails
              (tunnelID ++ ".cfargotunnel.com") (zoneIDByName zones)
              (zoneHostsOf state.HostToService zones) w zid hzid
            refine ⟨hw, ?_⟩
            intro c hc
            rcases List.mem_cons.1 hc with hc | hc
            · rw [hc]
              intro hcz
              cases hcz
            · exact hcalls c hc

/-- Witness for C10: an empty state issues no call, and a zone receiving no
hostname (here `other.org`) is untouched while `example.com` is synced. -/
theorem syncDNS_frame_property_witness :
    ((⟨[]⟩ : SyncState).HostToService = [] →
      SyncDNS (fun _ _ => false) ⟨[]⟩ [⟨"z1", "example.com"⟩] "tid" [] = ([], [], none)) ∧
    ("z2" ∉ zonePassIds (zoneIDByName [⟨"z1", "example.com"⟩, ⟨"z2", "other.org"⟩])
        (zoneHostsOf [("a.example.com", "svc")] [⟨"z1", "example.com"⟩, ⟨"z2", "other.org"⟩])) ∧
    (worldRecords (SyncDNS (fun _ _ => false) ⟨[("a.example.com", "svc")]⟩
        [⟨"z1", "example.com"⟩, ⟨"z2", "other.org"⟩] "tid"
        [("z2", [⟨"r1", "A", "b.other.org", "192.0.2.7", ""⟩])]).1 "z2" =
      worldRecords [("z2", [⟨"r1", "A", "b.other.org", "192.0.2.7", ""⟩])] "z2" ∧
     ∀ c ∈ (SyncDNS (fun _ _ => false) ⟨[("a.example.com", "svc")]⟩
        [⟨"z1", "example.com"⟩, ⟨"z2", "other.org"⟩] "tid"
        [("z2", [⟨"r1", "A", "b.other.org", "192.0.2.7", ""⟩])]).2.1,
       callZoneId c ≠ some "z2") :=
  ⟨(syncDNS_frame_property (fun _ _ => false) ⟨[]⟩ [⟨"z1", "example.com"⟩] "tid" []).1,
   by decide,
   (syncDNS_frame_property (fun _ _ => false) ⟨[("a.example.com", "svc")]⟩
      [⟨"z1", "example.com"⟩, ⟨"z2", "other.org"⟩] "tid"
      [("z2", [⟨"r1", "A", "b.other.org", "192.0.2.7", ""⟩])]).2 "z2" (by decide)⟩

/-- Decomposition of a failed `processZones` run: the error names a zone of
the work list, its failing call is one of that zone's computed actions, and
every zone processed before it keeps its fully converged record set. -/
theorem processZones_error_decomp (fails : String → dnsAction → Bool) (target : String)
    (idBy : List (String × String)) :
    ∀ (zh : List (String × List String)) (w : World),
      (zonePassIds idBy zh).Nodup →
      ∀ e : SyncErr, (processZones fails target idBy w zh).2.2 = some e →
      ∃ pre hs post,
        zh = pre ++ (e.zoneName, hs) :: post ∧
        (assocLookup idBy e.zoneName).getD "" = e.zoneID ∧
        e.zoneID ≠ "" ∧
        e.failedAction ∈ syncZoneActions hs target (worldRecords w e.zoneID) ∧
        (∀ q ∈ pre, ∀ zid', (assocLookup idBy q.1).getD "" = zid' → zid' ≠ "" →
          worldRecords (processZones fails target idBy w zh).1 zid' =
            runZoneSync q.2 target (worldRecords w zid')) := by
  intro zh
  induction zh with
  | nil =>
      intro w _ e he
      rw [processZones_nil] at he
      cases he
  | cons p rest ih =>
      obtain ⟨zn, hs0⟩ := p
      intro w hnd e he
      by_cases hskip : (((assocLookup idBy zn).getD "" == "") = true)
      · rw [processZones_cons_skip hskip] at he
        rw [zonePassIds_cons_skip hskip] at hnd
        obtain ⟨pre, hs, post, hsplit, h2, h3, h4, h5⟩ := ih w hnd e he
        refine ⟨(zn, hs0) :: pre, hs, post, by rw [List.cons_append, hsplit], h2, h3, h4, ?_⟩
        intro q hq zid' hzq hzne
        rw [processZones_cons_skip hskip]
        rcases List.mem_cons.1 hq with hq0 | hq0
        · exfalso
          have : (assocLookup idBy zn).getD "" = zid' := by rw [← hzq, hq0]
          rw [beq_iff_eq.1 hskip] at this
          exact hzne this.symm
        · exact h5 q hq0 zid' hzq hzne
      · rcases hrun : runZoneCalls fails ((assocLookup idBy zn).getD "")
            (worldRecords w ((assocLookup idBy zn).getD ""))
            (syncZoneActions hs0 target
              (worldRecords w ((assocLookup idBy zn).getD ""))) with ⟨recs', calls, fo⟩
        cases fo with
        | some a =>
            rw [processZones_cons_fail hskip hrun] at he
            have he' : e = ⟨zn, (assocLookup idBy zn).getD "", a⟩ :=
              (Option.some.inj he).symm
            subst he'
            refine ⟨[], hs0, rest, by rw [List.nil_append], rfl, ?_, ?_, ?_⟩
            · intro hc
              exact hskip (beq_iff_eq.2 hc)
            · exact runZoneCalls_fail_mem _ _ _ _ hrun
            · intro q hq zid' _ _
              simp at hq
        | none =>
            rw [processZones_cons_ok hskip hrun] at he
            rw [zonePassIds_cons_go hskip] at hnd
            obtain ⟨hnd1, hnd2⟩ := List.nodup_cons.1 hnd
            obtain ⟨pre, hs, post, hsplit, h2, h3, h4, h5⟩ := ih
              (worldUpdate w ((assocLookup idBy zn).getD "") recs') hnd2 e he
            have hfull := runZoneCalls_none _ _ _ _ hrun
            have hznid : e.zoneID ∈ zonePassIds idBy rest := by
              have hmem : (e.zoneName, hs) ∈ rest := by
                rw [hsplit]
                exact List.mem_append.2 (Or.inr (List.mem_cons_self _ _))
              have := mem_zonePassIds hmem (by rw [h2]; exact h3)
              rwa [h2] at this
            have hzne0 : e.zoneID ≠ (assocLookup idBy zn).getD "" :=
              fun hc => hnd1 (hc ▸ hznid)
            refine ⟨(zn, hs0) :: pre, hs, post, by rw [List.cons_append, hsplit], h2, h3,
              ?_, ?_⟩
            · rwa [worldRecords_update_ne w recs' hzne0] at h4
            · intro q hq zid' hzq hzne
              rw [processZones_cons_ok hskip hrun]
              rcases List.mem_cons.1 hq with hq0 | hq0
              · have hzq0 : zid' = (assocLookup idBy zn).getD "" := by
                  rw [← hzq, hq0]
                obtain ⟨hwfr, _⟩ := processZones_frame fails target idBy rest
                  (worldUpdate w ((assocLookup idBy zn).getD "") recs') zid'
                  (by rw [hzq0]; exact hnd1)
                rw [hwfr, hzq0, worldRecords_update_self, hfull.1, hq0]
                rfl
              · have hq5 := h5 q hq0 zid' hzq hzne
                have hqmem : (q.1, q.2) ∈ rest := by
                  rw [hsplit]
                  exact List.mem_append.2 (Or.inl hq0)
                have hzmem : zid' ∈ zonePassIds idBy rest := by
                  have := mem_zonePassIds hqmem (by rw [hzq]; exact hzne)
                  rwa [hzq] at this
                have hzneq : zid' ≠ (assocLookup idBy zn).getD "" :=
                  fun hc => hnd1 (hc ▸ hzmem)
                rwa [worldRecords_update_ne w recs' hzneq] at hq5

/-- C9.  Zone failure isolation: when `SyncDNS` returns an error, the error
names the zone (name and id) and carries the failing record call, which is one
of that zone's computed actions; every zone processed before the failing one
keeps its fully converged record set — no rollback across zones. -/
theorem dns_zone_failure_isolation (fails : String → dnsAction → Bool)
    (state : SyncState) (zones : List zoneSummary) (tunnelID : String) (w : World)
    (hz : (zonePassIds (zoneIDByName zones)
      (zoneHostsOf state.HostToService zones)).Nodup)
    (e : SyncErr) (he : (SyncDNS fails state zones tunnelID w).2.2 = some e) :
    ∃ pre hs post,
      zoneHostsOf state.HostToService zones = pre ++ (e.zoneName, hs) :: post ∧
      (assocLookup (zoneIDByName zones) e.zoneName).getD "" = e.zoneID ∧
      e.zoneID ≠ "" ∧
      e.failedAction ∈ syncZoneActions hs (tunnelID ++ ".cfargotunnel.com")
        (worldRecords w e.zoneID) ∧
      (∀ q ∈ pre, ∀ zid', (assocLookup (zoneIDByName zones) q.1).getD "" = zid' →
        zid' ≠ "" →
        worldRecords (SyncDNS fails state zones tunnelID w).1 zid' =
          runZoneSync q.2 (tunnelID ++ ".cfargotunnel.com") (worldRecords w zid')) := by
  cases hempty : state.HostToService.isEmpty with
  | true =>
      rw [SyncDNS_empty hempty] at he
      cases he
  | false =>
      cases hzempty : zones.isEmpty with
      | true =>
          rw [SyncDNS_noZones hempty hzempty] at he
          cases he
      | false =>
          rw [SyncDNS_go hempty hzempty] at he
          obtain ⟨pre, hs, post, h1, h2, h3, h4, h5⟩ := processZones_error_decomp fails
            (tunnelID ++ ".cfargotunnel.com") (zoneIDByName zones)
            (zoneHostsOf state.HostToService zones) w hz e he
          refine ⟨pre, hs, post, h1, h2, h3, h4, ?_⟩
          intro q hq zid' hzq hzne
          rw [SyncDNS_go hempty hzempty]
          exact h5 q hq zid' hzq hzne

/-- Witness for C9: two zones, the second one's creation call fails; the error
names that zone and the first zone keeps its converged records. -/
theorem dns_zone_failure_isolation_witness :
    (zonePassIds (zoneIDByName [⟨"z1", "example.com"⟩, ⟨"z2", "other.org"⟩])
      (zoneHostsOf [("a.example.com", "s1"), ("b.other.org", "s2")]
        [⟨"z1", "example.com"⟩, ⟨"z2", "other.org"⟩])).Nodup ∧
    (SyncDNS (fun zid _ => zid == "z2")
      ⟨[("a.example.com", "s1"), ("b.other.org", "s2")]⟩
      [⟨"z1", "example.com"⟩, ⟨"z2", "other.org"⟩] "tid" []).2.2 =
        some ⟨"other.org", "z2", .createRecord "b.other.org" "tid.cfargotunnel.com"⟩ ∧
    (∃ pre hs post,
      zoneHostsOf [("a.example.com", "s1"), ("b.other.org", "s2")]
          [⟨"z1", "example.com"⟩, ⟨"z2", "other.org"⟩] =
        pre ++ ((⟨"other.org", "z2",
          .createRecord "b.other.org" "tid.cfargotunnel.com"⟩ : SyncErr).zoneName, hs) :: post ∧
      (assocLookup (zoneIDByName [⟨"z1", "example.com"⟩, ⟨"z2", "other.org"⟩])
        "other.org").getD "" = "z2" ∧
      ("z2" : String) ≠ "" ∧
      (dnsAction.createRecord "b.other.org" "tid.cfargotunnel.com") ∈
        syncZoneActions hs "tid.cfargotunnel.com" (worldRecords [] "z2") ∧
      (∀ q ∈ pre, ∀ zid',
        (assocLookup (zoneIDByName [⟨"z1", "example.com"⟩, ⟨"z2", "other.org"⟩])
          q.1).getD "" = zid' → zid' ≠ "" →
        worldRecords (SyncDNS (fun zid _ => zid == "z2")
          ⟨[("a.example.com", "s1"), ("b.other.org", "s2")]⟩
          [⟨"z1", "example.com"⟩, ⟨"z2", "other.org"⟩] "tid" []).1 zid' =
          runZoneSync q.2 "tid.cfargotunnel.com" (worldRecords [] zid'))) :=
  ⟨by decide, by decide,
    dns_zone_failure_isolation (fun zid _ => zid == "z2")
      ⟨[("a.example.com", "s1"), ("b.other.org", "s2")]⟩
      [⟨"z1", "example.com"⟩, ⟨"z2", "other.org"⟩] "tid" [] (by decide)
      ⟨"other.org", "z2", .createRecord "b.other.org" "tid.cfargotunnel.com"⟩ (by decide)⟩

end TunnelManager
